import Mathlib

/-!
Verification of the elimination-voting backend (`backend/main.py`).

The development shallowly embeds the backend's in-memory data store and its
mutating operations (registration, voting, option management, phase changes,
round advancement, reset) as pure Lean functions over a `DataStore` record,
and proves the specification's claims about them.
-/

set_option linter.unusedVariables false

namespace HappyDay

/-! ### Python string normalization

`str.strip()` / `str.lower()` as used by name validation and the
case-insensitive registration lookup. -/

def isPySpace (c : Char) : Bool :=
  c = ' ' || c = '\t' || c = '\n' || c = '\r' || c = '\x0b' || c = '\x0c'

def charLower (c : Char) : Char :=
  match c with
  | 'A' => 'a'
  | 'B' => 'b'
  | 'C' => 'c'
  | 'D' => 'd'
  | 'E' => 'e'
  | 'F' => 'f'
  | 'G' => 'g'
  | 'H' => 'h'
  | 'I' => 'i'
  | 'J' => 'j'
  | 'K' => 'k'
  | 'L' => 'l'
  | 'M' => 'm'
  | 'N' => 'n'
  | 'O' => 'o'
  | 'P' => 'p'
  | 'Q' => 'q'
  | 'R' => 'r'
  | 'S' => 's'
  | 'T' => 't'
  | 'U' => 'u'
  | 'V' => 'v'
  | 'W' => 'w'
  | 'X' => 'x'
  | 'Y' => 'y'
  | 'Z' => 'z'
  | c => c

def pyLower (s : String) : String := String.mk (s.toList.map charLower)

def stripList (l : List Char) : List Char :=
  ((l.dropWhile isPySpace).reverse.dropWhile isPySpace).reverse

def pyStrip (s : String) : String := String.mk (stripList s.toList)

/-! ### Data model (`DataStore` in `main.py`) -/

structure VoteOption where
  id : String
  name : String
  votes : Nat
  deriving DecidableEq, Repr

structure UserRec where
  name : String
  voted : Bool
  vote_option : Option String
  eliminated : Bool
  deriving DecidableEq, Repr

structure HistoryEntry where
  round : Nat
  options : List (String × Nat)
  is_tie : Bool
  survivors : List String
  eliminated : List String
  deriving DecidableEq, Repr

structure HTTPErr where
  status : Nat
  detail : String
  deriving DecidableEq, Repr

structure DataStore where
  users : List (String × UserRec)
  options : List VoteOption
  game_status : String
  round : Nat
  eliminated_users : List String
  round_history : List HistoryEntry
  deriving DecidableEq, Repr

def initStore : DataStore :=
  { users := [], options := [], game_status := "waiting", round := 1,
    eliminated_users := [], round_history := [] }

def errUserNotFound : HTTPErr := ⟨404, "用户不存在，请重新注册"⟩

def errEliminated : HTTPErr := ⟨403, "您已被淘汰，无法投票"⟩

def errAlreadyVoted : HTTPErr := ⟨400, "您已经投过票了"⟩

def errNotVotingPhase : HTTPErr := ⟨400, "当前不在投票阶段"⟩

def errInvalidOption : HTTPErr := ⟨400, "无效的选项"⟩

def errNoOptions : HTTPErr := ⟨400, "请先设置投票选项"⟩

def errNotResultPhase : HTTPErr := ⟨400, "请先结束当前投票"⟩

def errNoPreset : HTTPErr := ⟨404, "当前轮次无预设选项，请手动设置"⟩

def errEmptyMax : HTTPErr := ⟨500, "max() arg is an empty sequence"⟩

/-! ### Registration -/

def illegalNameChars : String := "<>\"\'/\\;&|`$"

def hasIllegalChar (v : String) : Bool :=
  v.toList.any (fun c => illegalNameChars.toList.contains c)

def validate_name (raw : String) : Option String :=
  if raw.length < 1 || 20 < raw.length then none
  else
    let v := pyStrip raw
    if v = "" then none
    else if hasIllegalChar v then none
    else some v

def get_token_by_name (s : DataStore) (name : String) : Option String :=
  let nameLower := pyStrip (pyLower name)
  (s.users.find? (fun p => pyLower p.2.name = nameLower)).map (fun p => p.1)

def mkUser (name : String) : UserRec :=
  { name := name, voted := false, vote_option := none, eliminated := false }

def register_user (s : DataStore) (vname : String) (fresh : String) :
    (String × Bool) × DataStore :=
  match get_token_by_name s vname with
  | some tok => ((tok, false), s)
  | none => ((fresh, true), { s with users := s.users ++ [(fresh, mkUser vname)] })

/-! ### Voting -/

def findUser (s : DataStore) (token : String) : Option UserRec :=
  (s.users.find? (fun p => p.1 = token)).map (fun p => p.2)

def updateUser : List (String × UserRec) → String → (UserRec → UserRec) → List (String × UserRec)
  | [], _, _ => []
  | p :: rest, token, f =>
    if p.1 = token then (p.1, f p.2) :: rest else p :: updateUser rest token f

def incVote : List VoteOption → String → List VoteOption
  | [], _ => []
  | o :: rest, optId =>
    if o.id = optId then { o with votes := o.votes + 1 } :: rest else o :: incVote rest optId

def submit_vote (s : DataStore) (token optId : String) : Except HTTPErr Unit × DataStore :=
  match findUser s token with
  | none => (.error errUserNotFound, s)
  | some user =>
    if user.eliminated then (.error errEliminated, s)
    else if user.voted then (.error errAlreadyVoted, s)
    else if s.game_status ≠ "voting" then (.error errNotVotingPhase, s)
    else if !(s.options.any (fun o => o.id = optId)) then (.error errInvalidOption, s)
    else
      (.ok (), { s with
        options := incVote s.options optId,
        users := updateUser s.users token
          (fun u => { u with voted := true, vote_option := some optId }) })

/-! ### Option management -/

def optionIdOf (i : Nat) : String := "option_" ++ toString (i + 1)

def mkOptions (names : List String) : List VoteOption :=
  names.enum.map (fun p => { id := optionIdOf p.1, name := p.2, votes := 0 })

def applyReset (u : UserRec) : UserRec :=
  if u.eliminated then u else { u with voted := false, vote_option := none }

def resetVoteStatus (users : List (String × UserRec)) : List (String × UserRec) :=
  users.map (fun p => (p.1, applyReset p.2))

def create_options (s : DataStore) (names : List String) : DataStore :=
  { s with options := mkOptions names, users := resetVoteStatus s.users }

def load_preset (s : DataStore) (preset : Option (List String)) :
    Except HTTPErr Unit × DataStore :=
  match preset with
  | some (n :: rest) =>
    (.ok (), { s with options := mkOptions (n :: rest), users := resetVoteStatus s.users })
  | _ => (.error errNoPreset, s)

/-! ### Phase changes -/

def start_voting (s : DataStore) : Except HTTPErr Unit × DataStore :=
  if s.options.isEmpty then (.error errNoOptions, s)
  else (.ok (), { s with game_status := "voting" })

def end_voting (s : DataStore) : Except HTTPErr Unit × DataStore :=
  if s.game_status ≠ "voting" then (.error errNotVotingPhase, s)
  else (.ok (), { s with game_status := "result" })

/-! ### Round advancement (the elimination engine) -/

def allSame : List Nat → Bool
  | [] => false
  | v :: rest => rest.all (fun x => x == v)

def isTie (opts : List VoteOption) : Bool :=
  let vc := opts.map (fun o => o.votes)
  allSame vc && decide (0 < vc.headD 0)

def maxVotesOf (opts : List VoteOption) : Nat :=
  (opts.map (fun o => o.votes)).foldr max 0

def majorityIds (opts : List VoteOption) : List String :=
  (opts.filter (fun o => o.votes == maxVotesOf opts)).map (fun o => o.id)

def shouldElimMaj (maj : List String) (u : UserRec) : Bool :=
  !u.voted ||
    (match u.vote_option with
     | some o => maj.contains o
     | none => false)

def applyElim (sh : UserRec → Bool) (u : UserRec) : UserRec :=
  if !u.eliminated && sh u then { u with eliminated := true } else u

def elimStep (sh : UserRec → Bool) :
    List (String × UserRec) → List (String × UserRec) × List (String × String) × List String
  | [] => ([], [], [])
  | (t, u) :: rest =>
    let r := elimStep sh rest
    if u.eliminated then ((t, u) :: r.1, r.2.1, r.2.2)
    else if sh u then ((t, { u with eliminated := true }) :: r.1, (t, u.name) :: r.2.1, r.2.2)
    else ((t, u) :: r.1, r.2.1, u.name :: r.2.2)

def optionsSnapshot (opts : List VoteOption) : List (String × Nat) :=
  opts.map (fun o => (o.name, o.votes))

def newOptionSet (newOpts : Option (List String)) : List VoteOption :=
  match newOpts with
  | some (n :: rest) => mkOptions (n :: rest)
  | _ => []

def finishRound (s : DataStore) (newOpts : Option (List String)) (tie : Bool)
    (r : List (String × UserRec) × List (String × String) × List String) : DataStore :=
  { users := resetVoteStatus r.1,
    options := newOptionSet newOpts,
    game_status := "waiting",
    round := s.round + 1,
    eliminated_users := s.eliminated_users ++ r.2.1.map (fun p => p.1),
    round_history := s.round_history ++
      [{ round := s.round, options := optionsSnapshot s.options, is_tie := tie,
         survivors := r.2.2, eliminated := r.2.1.map (fun p => p.2) }] }

def next_round (s : DataStore) (newOpts : Option (List String)) :
    Except HTTPErr Bool × DataStore :=
  if s.game_status ≠ "result" then (.error errNotResultPhase, s)
  else if isTie s.options then
    (.ok true, finishRound s newOpts true (elimStep (fun u => !u.voted) s.users))
  else if s.options.isEmpty then (.error errEmptyMax, s)
  else
    (.ok false, finishRound s newOpts false
      (elimStep (shouldElimMaj (majorityIds s.options)) s.users))

def reset_game (_s : DataStore) : DataStore := initStore

/-! ### The operation step relation

`Step s s'` holds when one externally-triggered operation takes the store
from `s` to `s'` (failed operations leave the store unchanged).  Request
validation performed by the HTTP layer before the handler runs (pydantic
name validation, the 2–4 bound on option lists) appears as hypotheses, and
the uuid4 token for a new registration is modelled as an arbitrary token
distinct from all issued ones. -/

abbrev freshToken (s : DataStore) (fresh : String) : Prop :=
  ∀ p ∈ s.users, p.1 ≠ fresh

inductive Step : DataStore → DataStore → Prop where
  | register (s : DataStore) (raw v fresh : String)
      (hv : validate_name raw = some v) (hf : freshToken s fresh) :
      Step s (register_user s v fresh).2
  | vote (s : DataStore) (token optId : String) :
      Step s (submit_vote s token optId).2
  | setOptions (s : DataStore) (names : List String)
      (h2 : 2 ≤ names.length) (h4 : names.length ≤ 4) :
      Step s (create_options s names)
  | loadPreset (s : DataStore) (preset : Option (List String)) :
      Step s (load_preset s preset).2
  | startVoting (s : DataStore) : Step s (start_voting s).2
  | endVoting (s : DataStore) : Step s (end_voting s).2
  | nextRound (s : DataStore) (newOpts : Option (List String)) :
      Step s (next_round s newOpts).2
  | reset (s : DataStore) : Step s (reset_game s)

inductive Reachable : DataStore → Prop where
  | init : Reachable initStore
  | step {s s' : DataStore} : Reachable s → Step s s' → Reachable s'

/-- Steps other than the full game reset. -/
inductive StepNR : DataStore → DataStore → Prop where
  | register (s : DataStore) (raw v fresh : String)
      (hv : validate_name raw = some v) (hf : freshToken s fresh) :
      StepNR s (register_user s v fresh).2
  | vote (s : DataStore) (token optId : String) :
      StepNR s (submit_vote s token optId).2
  | setOptions (s : DataStore) (names : List String)
      (h2 : 2 ≤ names.length) (h4 : names.length ≤ 4) :
      StepNR s (create_options s names)
  | loadPreset (s : DataStore) (preset : Option (List String)) :
      StepNR s (load_preset s preset).2
  | startVoting (s : DataStore) : StepNR s (start_voting s).2
  | endVoting (s : DataStore) : StepNR s (end_voting s).2
  | nextRound (s : DataStore) (newOpts : Option (List String)) :
      StepNR s (next_round s newOpts).2

inductive NRSteps : DataStore → DataStore → Prop where
  | refl (s : DataStore) : NRSteps s s
  | tail {s s' s'' : DataStore} : NRSteps s s' → StepNR s' s'' → NRSteps s s''

theorem StepNR.toStep {s s' : DataStore} (h : StepNR s s') : Step s s' := by
  cases h with
  | register raw v fresh hv hf => exact Step.register s raw v fresh hv hf
  | vote token optId => exact Step.vote s token optId
  | setOptions names h2 h4 => exact Step.setOptions s names h2 h4
  | loadPreset preset => exact Step.loadPreset s preset
  | startVoting => exact Step.startVoting s
  | endVoting => exact Step.endVoting s
  | nextRound newOpts => exact Step.nextRound s newOpts

theorem NRSteps.reachable {s s' : DataStore} (hs : Reachable s) (h : NRSteps s s') :
    Reachable s' := by
  induction h with
  | refl => exact hs
  | tail _ hstep ih => exact Reachable.step ih hstep.toStep

/-! ### Derived quantities used in claim statements -/

def sumVotes (opts : List VoteOption) : Nat :=
  (opts.map (fun o => o.votes)).sum

def countVotedActive (users : List (String × UserRec)) : Nat :=
  (users.filter (fun p => !p.2.eliminated && p.2.voted)).length

def countActive (users : List (String × UserRec)) : Nat :=
  (users.filter (fun p => !p.2.eliminated)).length

/-! ### Facts about the string normalization -/

theorem isPySpace_charLower (c : Char) : isPySpace (charLower c) = isPySpace c := by
  unfold charLower
  split <;> rfl

theorem dropWhile_idem {α : Type _} (p : α → Bool) (l : List α) :
    (l.dropWhile p).dropWhile p = l.dropWhile p := by
  induction l with
  | nil => rfl
  | cons a t ih =>
    by_cases h : p a = true
    · rw [List.dropWhile_cons_of_pos h]
      exact ih
    · simp [List.dropWhile_cons_of_neg h]

theorem dropWhile_head?_false {α : Type _} (p : α → Bool) (l : List α) (a : α)
    (h : (l.dropWhile p).head? = some a) : p a = false := by
  have hm := List.head?_dropWhile_not p l
  rw [h] at hm
  exact hm

theorem dropWhile_eq_self_of_head? {α : Type _} (p : α → Bool) (l : List α)
    (h : ∀ a, l.head? = some a → p a = false) : l.dropWhile p = l := by
  cases l with
  | nil => rfl
  | cons a t => exact List.dropWhile_cons_of_neg (by simp [h a rfl])

theorem head?_false_of_dropWhile_eq_self {α : Type _} (p : α → Bool) (l : List α)
    (h : l.dropWhile p = l) (a : α) (ha : l.head? = some a) : p a = false := by
  apply dropWhile_head?_false p l
  rw [h]
  exact ha

theorem getLast?_dropWhile {α : Type _} (p : α → Bool) (l : List α)
    (h : l.dropWhile p ≠ []) : (l.dropWhile p).getLast? = l.getLast? := by
  induction l with
  | nil => simp at h
  | cons a t ih =>
    by_cases hpa : p a = true
    · rw [List.dropWhile_cons_of_pos hpa] at h ⊢
      rw [ih h]
      cases t with
      | nil => simp at h
      | cons b t' => simp
    · rw [List.dropWhile_cons_of_neg hpa]

theorem dropWhile_reverse_dropWhile_reverse {α : Type _} (p : α → Bool) (A : List α)
    (hA : A.dropWhile p = A) :
    ((A.reverse.dropWhile p).reverse).dropWhile p = (A.reverse.dropWhile p).reverse := by
  apply dropWhile_eq_self_of_head?
  intro a ha
  rw [List.head?_reverse] at ha
  have hne : A.reverse.dropWhile p ≠ [] := by
    intro hnil
    rw [hnil] at ha
    simp at ha
  rw [getLast?_dropWhile p A.reverse hne, List.getLast?_reverse] at ha
  exact head?_false_of_dropWhile_eq_self p A hA a ha

theorem stripList_idem (l : List Char) : stripList (stripList l) = stripList l := by
  unfold stripList
  rw [dropWhile_reverse_dropWhile_reverse isPySpace (l.dropWhile isPySpace)
    (dropWhile_idem isPySpace l)]
  rw [List.reverse_reverse, dropWhile_idem]

theorem stripList_map_charLower (l : List Char) :
    stripList (l.map charLower) = (stripList l).map charLower := by
  have hcomp : (isPySpace ∘ charLower) = isPySpace := funext isPySpace_charLower
  unfold stripList
  rw [List.dropWhile_map, hcomp, ← List.map_reverse, List.dropWhile_map, hcomp,
    ← List.map_reverse]

theorem pyStrip_pyLower (s : String) : pyStrip (pyLower s) = pyLower (pyStrip s) :=
  congrArg String.mk (stripList_map_charLower s.toList)

theorem pyStrip_idem (s : String) : pyStrip (pyStrip s) = pyStrip s :=
  congrArg String.mk (stripList_idem s.toList)

theorem pyStrip_pyLower_pyStrip (raw : String) :
    pyStrip (pyLower (pyStrip raw)) = pyLower (pyStrip raw) := by
  rw [pyStrip_pyLower, pyStrip_idem]

/-! ### Generic list facts -/

theorem find?_append_some {α : Type _} {p : α → Bool} {l₁ l₂ : List α} {a : α}
    (h : l₁.find? p = some a) : (l₁ ++ l₂).find? p = some a := by
  rw [List.find?_append, h]
  rfl

theorem sum_zero_of_mem (l : List Nat) (h : ∀ x ∈ l, x = 0) : l.sum = 0 := by
  induction l with
  | nil => rfl
  | cons a t ih =>
    rw [List.sum_cons, h a (List.mem_cons_self a t),
      ih (fun x hx => h x (List.mem_cons_of_mem a hx))]

theorem foldr_max_le (l : List Nat) : ∀ x ∈ l, x ≤ l.foldr max 0 := by
  induction l with
  | nil =>
    intro x hx
    simp at hx
  | cons a t ih =>
    intro x hx
    rw [List.foldr_cons]
    rcases List.mem_cons.mp hx with rfl | hx'
    · exact Nat.le_max_left _ _
    · exact Nat.le_trans (ih x hx') (Nat.le_max_right _ _)

theorem foldr_max_mem (l : List Nat) (h : l ≠ []) : l.foldr max 0 ∈ l := by
  induction l with
  | nil => exact absurd rfl h
  | cons a t ih =>
    rw [List.foldr_cons]
    cases t with
    | nil => simp
    | cons b t' =>
      rcases Nat.le_total ((b :: t').foldr max 0) a with hle | hle
      · rw [Nat.max_eq_left hle]
        exact List.mem_cons_self _ _
      · rw [Nat.max_eq_right hle]
        exact List.mem_cons_of_mem a (ih (by simp))

theorem foldr_max_zero (l : List Nat) (h : ∀ x ∈ l, x = 0) : l.foldr max 0 = 0 := by
  induction l with
  | nil => rfl
  | cons a t ih =>
    rw [List.foldr_cons, h a (List.mem_cons_self a t),
      ih (fun x hx => h x (List.mem_cons_of_mem a hx))]
    exact Nat.max_self 0

/-! ### Facts about the operation helpers -/

theorem validate_name_strip {raw v : String} (h : validate_name raw = some v) :
    v = pyStrip raw := by
  unfold validate_name at h
  split at h
  · exact absurd h (by simp)
  · simp only [] at h
    split at h
    · exact absurd h (by simp)
    · split at h
      · exact absurd h (by simp)
      · exact (Option.some.injEq _ _ ▸ h).symm

/-- The tally recorded for an option id (0 if the id is absent). -/
def votesFor (opts : List VoteOption) (optId : String) : Nat :=
  ((opts.find? (fun o => o.id = optId)).map (fun o => o.votes)).getD 0

theorem length_incVote (opts : List VoteOption) (optId : String) :
    (incVote opts optId).length = opts.length := by
  induction opts with
  | nil => rfl
  | cons o rest ih =>
    unfold incVote
    split
    · simp
    · simp [ih]

theorem sumVotes_cons (o : VoteOption) (rest : List VoteOption) :
    sumVotes (o :: rest) = o.votes + sumVotes rest := by
  simp [sumVotes]

theorem sumVotes_incVote (opts : List VoteOption) (optId : String)
    (h : ∃ o ∈ opts, o.id = optId) :
    sumVotes (incVote opts optId) = sumVotes opts + 1 := by
  induction opts with
  | nil => simp at h
  | cons o rest ih =>
    unfold incVote
    by_cases ho : o.id = optId
    · rw [if_pos ho, sumVotes_cons, sumVotes_cons]
      dsimp only
      omega
    · rw [if_neg ho, sumVotes_cons, sumVotes_cons]
      have h' : ∃ o ∈ rest, o.id = optId := by
        rcases h with ⟨o', ho', hid⟩
        rcases List.mem_cons.mp ho' with rfl | hmem
        · exact absurd hid ho
        · exact ⟨o', hmem, hid⟩
      rw [ih h']
      omega

theorem votesFor_incVote_self (opts : List VoteOption) (optId : String)
    (h : ∃ o ∈ opts, o.id = optId) :
    votesFor (incVote opts optId) optId = votesFor opts optId + 1 := by
  induction opts with
  | nil => simp at h
  | cons o rest ih =>
    unfold incVote
    by_cases ho : o.id = optId
    · rw [if_pos ho]
      unfold votesFor
      simp [List.find?_cons, ho]
    · rw [if_neg ho]
      unfold votesFor
      simp only [List.find?_cons, ho, decide_False]
      have h' : ∃ o ∈ rest, o.id = optId := by
        rcases h with ⟨o', ho', hid⟩
        rcases List.mem_cons.mp ho' with rfl | hmem
        · exact absurd hid ho
        · exact ⟨o', hmem, hid⟩
      exact ih h'

theorem votesFor_incVote_other (opts : List VoteOption) (optId oid : String)
    (hne : oid ≠ optId) :
    votesFor (incVote opts optId) oid = votesFor opts oid := by
  induction opts with
  | nil => rfl
  | cons o rest ih =>
    unfold incVote
    by_cases ho : o.id = optId
    · rw [if_pos ho]
      unfold votesFor
      have hno : ¬ o.id = oid := by
        rw [ho]
        exact fun hc => hne hc.symm
      simp only [List.find?_cons, hno, decide_False]
    · rw [if_neg ho]
      by_cases hoid : o.id = oid
      · unfold votesFor
        simp only [List.find?_cons, hoid, decide_True]
      · unfold votesFor
        simp only [List.find?_cons, hoid, decide_False]
        exact ih

theorem mkOptions_votes (names : List String) : ∀ o ∈ mkOptions names, o.votes = 0 := by
  intro o ho
  unfold mkOptions at ho
  obtain ⟨p, _, rfl⟩ := List.mem_map.mp ho
  rfl

theorem sumVotes_mkOptions (names : List String) : sumVotes (mkOptions names) = 0 := by
  apply sum_zero_of_mem
  intro x hx
  obtain ⟨o, ho, rfl⟩ := List.mem_map.mp hx
  exact mkOptions_votes names o ho

theorem length_mkOptions (names : List String) :
    (mkOptions names).length = names.length := by
  simp [mkOptions]

theorem mkOptions_names (names : List String) :
    (mkOptions names).map (fun o => o.name) = names := by
  unfold mkOptions
  rw [List.map_map]
  have hc : ((fun o : VoteOption => o.name) ∘ fun p : Nat × String =>
      ({ id := optionIdOf p.1, name := p.2, votes := 0 } : VoteOption)) =
      Prod.snd := rfl
  rw [hc]
  have he : names.enum = names.enumFrom 0 := rfl
  rw [he]
  exact List.enumFrom_map_snd 0 names

theorem find?_updateUser_self (l : List (String × UserRec)) (tok : String)
    (f : UserRec → UserRec) :
    (updateUser l tok f).find? (fun p => p.1 = tok) =
      (l.find? (fun p => p.1 = tok)).map (fun p => (p.1, f p.2)) := by
  induction l with
  | nil => rfl
  | cons p rest ih =>
    unfold updateUser
    by_cases hp : p.1 = tok
    · rw [if_pos hp]
      simp [List.find?_cons, hp]
    · rw [if_neg hp]
      simp only [List.find?_cons, hp, decide_False]
      exact ih

theorem find?_updateUser_other (l : List (String × UserRec)) (tok tok' : String)
    (f : UserRec → UserRec) (hne : tok' ≠ tok) :
    (updateUser l tok f).find? (fun p => p.1 = tok') =
      l.find? (fun p => p.1 = tok') := by
  induction l with
  | nil => rfl
  | cons p rest ih =>
    unfold updateUser
    by_cases hp : p.1 = tok
    · have hnp : ¬ p.1 = tok' := by
        rw [hp]
        exact fun hc => hne hc.symm
      rw [if_pos hp]
      simp only [List.find?_cons, hnp, decide_False]
    · rw [if_neg hp]
      by_cases hp' : p.1 = tok'
      · simp only [List.find?_cons, hp', decide_True]
      · simp only [List.find?_cons, hp', decide_False]
        exact ih

theorem find?_fst_map (l : List (String × UserRec)) (g : UserRec → UserRec) (tok : String) :
    (l.map (fun p => (p.1, g p.2))).find? (fun p => p.1 = tok) =
      (l.find? (fun p => p.1 = tok)).map (fun p => (p.1, g p.2)) := by
  induction l with
  | nil => rfl
  | cons p rest ih =>
    rw [List.map_cons]
    by_cases hp : p.1 = tok
    · simp [List.find?_cons, hp]
    · simp only [List.find?_cons, hp, decide_False]
      exact ih

/-- The names of the registered participants, in registration order. -/
def namesOf (l : List (String × UserRec)) : List String := l.map (fun p => p.2.name)

theorem namesOf_map_user (l : List (String × UserRec)) (g : UserRec → UserRec)
    (hg : ∀ u, (g u).name = u.name) :
    namesOf (l.map (fun p => (p.1, g p.2))) = namesOf l := by
  induction l with
  | nil => rfl
  | cons p rest ih =>
    simp only [namesOf, List.map_cons] at ih ⊢
    rw [hg p.2, ih]

theorem namesOf_updateUser (l : List (String × UserRec)) (tok : String)
    (f : UserRec → UserRec) (hf : ∀ u, (f u).name = u.name) :
    namesOf (updateUser l tok f) = namesOf l := by
  induction l with
  | nil => rfl
  | cons p rest ih =>
    unfold updateUser
    by_cases hp : p.1 = tok
    · rw [if_pos hp]
      simp only [namesOf, List.map_cons]
      rw [hf p.2]
    · rw [if_neg hp]
      simp only [namesOf, List.map_cons] at ih ⊢
      rw [ih]

theorem namesOf_append (l₁ l₂ : List (String × UserRec)) :
    namesOf (l₁ ++ l₂) = namesOf l₁ ++ namesOf l₂ := by
  simp [namesOf]

theorem elimStep_users (sh : UserRec → Bool) (l : List (String × UserRec)) :
    (elimStep sh l).1 = l.map (fun p => (p.1, applyElim sh p.2)) := by
  induction l with
  | nil => rfl
  | cons p rest ih =>
    obtain ⟨t, u⟩ := p
    by_cases he : u.eliminated = true
    · simp [elimStep, he, applyElim, ih]
    · by_cases hs : sh u = true
      · simp [elimStep, he, hs, applyElim, ih]
      · simp [elimStep, he, hs, applyElim, ih]

theorem elimStep_elims (sh : UserRec → Bool) (l : List (String × UserRec)) :
    (elimStep sh l).2.1 =
      (l.filter (fun p => !p.2.eliminated && sh p.2)).map (fun p => (p.1, p.2.name)) := by
  induction l with
  | nil => rfl
  | cons p rest ih =>
    obtain ⟨t, u⟩ := p
    by_cases he : u.eliminated = true
    · simp [elimStep, List.filter_cons, he, ih]
    · by_cases hs : sh u = true
      · simp [elimStep, List.filter_cons, he, hs, ih]
      · simp [elimStep, List.filter_cons, he, hs, ih]

theorem elimStep_survivors (sh : UserRec → Bool) (l : List (String × UserRec)) :
    (elimStep sh l).2.2 =
      (l.filter (fun p => !p.2.eliminated && !sh p.2)).map (fun p => p.2.name) := by
  induction l with
  | nil => rfl
  | cons p rest ih =>
    obtain ⟨t, u⟩ := p
    by_cases he : u.eliminated = true
    · simp [elimStep, List.filter_cons, he, ih]
    · by_cases hs : sh u = true
      · simp [elimStep, List.filter_cons, he, hs, ih]
      · simp [elimStep, List.filter_cons, he, hs, ih]

theorem countVotedActive_resetVoteStatus (l : List (String × UserRec)) :
    countVotedActive (resetVoteStatus l) = 0 := by
  unfold countVotedActive
  rw [List.length_eq_zero, List.filter_eq_nil_iff]
  intro p hp
  obtain ⟨q, hq, rfl⟩ := List.mem_map.mp hp
  by_cases he : q.2.eliminated = true <;> simp [applyReset, he]

theorem countVotedActive_markVoted (l : List (String × UserRec)) (tok optId : String)
    (pr : String × UserRec) (h : l.find? (fun p => p.1 = tok) = some pr)
    (he : pr.2.eliminated = false) (hv : pr.2.voted = false) :
    countVotedActive (updateUser l tok
      (fun u => { u with voted := true, vote_option := some optId })) =
      countVotedActive l + 1 := by
  induction l with
  | nil => simp at h
  | cons p rest ih =>
    unfold updateUser
    by_cases hp : p.1 = tok
    · rw [if_pos hp]
      rw [List.find?_cons] at h
      simp only [hp, decide_True] at h
      obtain rfl : p = pr := by
        injection h
      simp [countVotedActive, List.filter_cons, he, hv]
    · rw [if_neg hp]
      rw [List.find?_cons] at h
      simp only [hp, decide_False] at h
      simp only [countVotedActive, List.filter_cons] at ih ⊢
      by_cases hpred : (!p.2.eliminated && p.2.voted) = true
      · simp only [hpred, if_true, List.length_cons]
        rw [ih h]
      · simp only [hpred, if_false, Bool.false_eq_true]
        exact ih h

/-! ### Transfer of lookups along user-list transformations -/

/-- The per-entry relationship every user-list transformation of the backend
respects: the token is unchanged, the display name is unchanged, and the
eliminated flag is never cleared. -/
def UserPres (p q : String × UserRec) : Prop :=
  q.1 = p.1 ∧ q.2.name = p.2.name ∧ (p.2.eliminated = true → q.2.eliminated = true)

theorem forall2_refl {α : Type _} (R : α → α → Prop) (l : List α)
    (h : ∀ a ∈ l, R a a) : List.Forall₂ R l l := by
  induction l with
  | nil => exact List.Forall₂.nil
  | cons a t ih =>
    exact List.Forall₂.cons (h a (List.mem_cons_self a t))
      (ih (fun x hx => h x (List.mem_cons_of_mem a hx)))

theorem forall2_map_self {α : Type _} (R : α → α → Prop) (l : List α) (g : α → α)
    (h : ∀ a, R a (g a)) : List.Forall₂ R l (l.map g) := by
  induction l with
  | nil => exact List.Forall₂.nil
  | cons a t ih => exact List.Forall₂.cons (h a) ih

theorem forall2_updateUser (R : (String × UserRec) → (String × UserRec) → Prop)
    (l : List (String × UserRec)) (tok : String) (f : UserRec → UserRec)
    (hrefl : ∀ a, R a a) (hupd : ∀ a : String × UserRec, R a (a.1, f a.2)) :
    List.Forall₂ R l (updateUser l tok f) := by
  induction l with
  | nil => exact List.Forall₂.nil
  | cons p rest ih =>
    unfold updateUser
    by_cases hp : p.1 = tok
    · rw [if_pos hp]
      exact List.Forall₂.cons (hupd p) (forall2_refl R rest (fun a _ => hrefl a))
    · rw [if_neg hp]
      exact List.Forall₂.cons (hrefl p) ih

theorem find?_token_forall2 {R : (String × UserRec) → (String × UserRec) → Prop}
    (hR : ∀ a b, R a b → b.1 = a.1) {l l' : List (String × UserRec)}
    (h : List.Forall₂ R l l') (tok : String) (pr : String × UserRec)
    (hpr : l.find? (fun p => p.1 = tok) = some pr) :
    ∃ pr', l'.find? (fun p => p.1 = tok) = some pr' ∧ R pr pr' := by
  induction h with
  | nil => simp at hpr
  | @cons a b l₁ l₂ hab htail ih =>
    by_cases hp : a.1 = tok
    · rw [List.find?_cons] at hpr
      simp only [hp, decide_True] at hpr
      obtain rfl : a = pr := by
        injection hpr
      have hb1 : b.1 = tok := by rw [hR a b hab, hp]
      refine ⟨b, ?_, hab⟩
      rw [List.find?_cons]
      simp [hb1]
    · have hb1 : ¬ b.1 = tok := by
        rw [hR a b hab]
        exact hp
      rw [List.find?_cons] at hpr
      simp only [hp, decide_False] at hpr
      obtain ⟨pr', h1, h2⟩ := ih hpr
      refine ⟨pr', ?_, h2⟩
      rw [List.find?_cons]
      simp only [hb1, decide_False]
      exact h1

theorem find?_name_forall2 {R : (String × UserRec) → (String × UserRec) → Prop}
    (hR1 : ∀ a b, R a b → b.1 = a.1) (hRn : ∀ a b, R a b → b.2.name = a.2.name)
    {l l' : List (String × UserRec)} (h : List.Forall₂ R l l') (k : String) :
    (l'.find? (fun p => pyLower p.2.name = k)).map (fun p => p.1) =
      (l.find? (fun p => pyLower p.2.name = k)).map (fun p => p.1) := by
  induction h with
  | nil => rfl
  | @cons a b l₁ l₂ hab htail ih =>
    by_cases hp : pyLower a.2.name = k
    · have hbp : pyLower b.2.name = k := by rw [hRn a b hab, hp]
      rw [List.find?_cons, List.find?_cons]
      simp only [hp, hbp, decide_True]
      simp [hR1 a b hab]
    · have hbp : ¬ pyLower b.2.name = k := by
        rw [hRn a b hab]
        exact hp
      rw [List.find?_cons, List.find?_cons]
      simp only [hp, hbp, decide_False]
      exact ih

/-! ### Facts about tie detection and the majority set -/

theorem isTie_iff (opts : List VoteOption) (h : opts ≠ []) :
    isTie opts = true ↔ ∃ v, 0 < v ∧ ∀ o ∈ opts, o.votes = v := by
  cases opts with
  | nil => exact absurd rfl h
  | cons o rest =>
    unfold isTie allSame
    simp only [List.map_cons, List.headD_cons, Bool.and_eq_true, List.all_eq_true,
      decide_eq_true_eq]
    constructor
    · rintro ⟨hall, hpos⟩
      refine ⟨o.votes, hpos, ?_⟩
      intro o' ho'
      rcases List.mem_cons.mp ho' with rfl | ho'
      · rfl
      · have := hall o'.votes (List.mem_map.mpr ⟨o', ho', rfl⟩)
        exact beq_iff_eq.mp this
    · rintro ⟨v, hv, hall⟩
      have ho : o.votes = v := hall o (List.mem_cons_self o rest)
      constructor
      · intro x hx
        obtain ⟨o', ho', rfl⟩ := List.mem_map.mp hx
        rw [hall o' (List.mem_cons_of_mem o ho'), ho]
        exact beq_iff_eq.mpr rfl
      · rw [ho]
        exact hv

theorem isTie_false_of_zero (opts : List VoteOption)
    (h : ∀ o ∈ opts, o.votes = 0) : isTie opts = false := by
  cases opts with
  | nil => rfl
  | cons o rest =>
    unfold isTie
    simp [h o (List.mem_cons_self o rest)]

theorem maxVotesOf_le (opts : List VoteOption) (o : VoteOption) (ho : o ∈ opts) :
    o.votes ≤ maxVotesOf opts :=
  foldr_max_le _ o.votes (List.mem_map.mpr ⟨o, ho, rfl⟩)

theorem maxVotesOf_mem (opts : List VoteOption) (h : opts ≠ []) :
    ∃ o ∈ opts, o.votes = maxVotesOf opts := by
  have hm := foldr_max_mem (opts.map (fun o => o.votes)) (by simpa using h)
  obtain ⟨o, ho, hv⟩ := List.mem_map.mp hm
  exact ⟨o, ho, hv⟩

theorem maxVotesOf_zero (opts : List VoteOption) (h : ∀ o ∈ opts, o.votes = 0) :
    maxVotesOf opts = 0 := by
  apply foldr_max_zero
  intro x hx
  obtain ⟨o, ho, rfl⟩ := List.mem_map.mp hx
  exact h o ho

theorem majorityIds_all_of_zero (opts : List VoteOption)
    (h : ∀ o ∈ opts, o.votes = 0) :
    majorityIds opts = opts.map (fun o => o.id) := by
  unfold majorityIds
  have hf : opts.filter (fun o => o.votes == maxVotesOf opts) = opts := by
    rw [List.filter_eq_self]
    intro o ho
    rw [h o ho, maxVotesOf_zero opts h]
    rfl
  rw [hf]

/-! ### Case analysis of `submit_vote` (mirrors the five checks in the handler) -/

theorem submit_vote_notfound (s : DataStore) (token optId : String)
    (h : findUser s token = none) :
    submit_vote s token optId = (.error errUserNotFound, s) := by
  unfold submit_vote
  rw [h]

theorem submit_vote_eliminated (s : DataStore) (token optId : String) (u : UserRec)
    (h : findUser s token = some u) (he : u.eliminated = true) :
    submit_vote s token optId = (.error errEliminated, s) := by
  unfold submit_vote
  rw [h]
  simp [he]

theorem submit_vote_conflict (s : DataStore) (token optId : String) (u : UserRec)
    (h : findUser s token = some u) (he : u.eliminated = false) (hv : u.voted = true) :
    submit_vote s token optId = (.error errAlreadyVoted, s) := by
  unfold submit_vote
  rw [h]
  simp [he, hv]

theorem submit_vote_wrong_phase (s : DataStore) (token optId : String) (u : UserRec)
    (h : findUser s token = some u) (he : u.eliminated = false) (hv : u.voted = false)
    (hst : s.game_status ≠ "voting") :
    submit_vote s token optId = (.error errNotVotingPhase, s) := by
  unfold submit_vote
  rw [h]
  simp [he, hv, hst]

theorem submit_vote_invalid_option (s : DataStore) (token optId : String) (u : UserRec)
    (h : findUser s token = some u) (he : u.eliminated = false) (hv : u.voted = false)
    (hst : s.game_status = "voting") (hopt : ∀ o ∈ s.options, o.id ≠ optId) :
    submit_vote s token optId = (.error errInvalidOption, s) := by
  have hany : s.options.any (fun o => o.id = optId) = false := by
    rw [← Bool.not_eq_true, List.any_eq_true]
    rintro ⟨o, ho, hid⟩
    exact hopt o ho (by simpa using hid)
  unfold submit_vote
  rw [h]
  simp [he, hv, hst, hany]

theorem submit_vote_success (s : DataStore) (token optId : String)
    (pr : String × UserRec) (hpr : s.users.find? (fun p => p.1 = token) = some pr)
    (he : pr.2.eliminated = false) (hv : pr.2.voted = false)
    (hst : s.game_status = "voting") (hopt : ∃ o ∈ s.options, o.id = optId) :
    submit_vote s token optId = (.ok (), { s with
      options := incVote s.options optId,
      users := updateUser s.users token
        (fun u => { u with voted := true, vote_option := some optId }) }) := by
  have hfu : findUser s token = some pr.2 := by
    unfold findUser
    rw [hpr]
    rfl
  have hany : s.options.any (fun o => o.id = optId) = true := by
    obtain ⟨o, ho, hid⟩ := hopt
    exact List.any_eq_true.mpr ⟨o, ho, by simp [hid]⟩
  unfold submit_vote
  rw [hfu]
  simp [he, hv, hst, hany]

/-! ### The global reachability invariant -/

structure Inv (s : DataStore) : Prop where
  tally : sumVotes s.options = countVotedActive s.users
  nodupNames : ((namesOf s.users).map pyLower).Nodup
  strippedNames : ∀ n ∈ namesOf s.users, pyStrip n = n
  phaseOpts : s.game_status = "voting" ∨ s.game_status = "result" → s.options ≠ []

theorem inv_init : Inv initStore := by
  refine ⟨rfl, List.nodup_nil, ?_, ?_⟩
  · intro n hn
    simp [namesOf, initStore] at hn
  · intro h
    rcases h with h | h <;> exact absurd h (by decide)

theorem applyReset_name (u : UserRec) : (applyReset u).name = u.name := by
  by_cases he : u.eliminated = true <;> simp [applyReset, he]

theorem applyElim_name (sh : UserRec → Bool) (u : UserRec) :
    (applyElim sh u).name = u.name := by
  unfold applyElim
  split <;> rfl

theorem namesOf_resetVoteStatus (l : List (String × UserRec)) :
    namesOf (resetVoteStatus l) = namesOf l :=
  namesOf_map_user l applyReset applyReset_name

theorem inv_register (s : DataStore) (raw v fresh : String)
    (hv : validate_name raw = some v) (hInv : Inv s) :
    Inv (register_user s v fresh).2 := by
  unfold register_user
  cases hlook : get_token_by_name s v with
  | some tok => exact hInv
  | none =>
    have hvs : v = pyStrip raw := validate_name_strip hv
    have hkey : pyStrip (pyLower v) = pyLower v := by
      rw [hvs]
      exact pyStrip_pyLower_pyStrip raw
    have hnotin : ∀ p ∈ s.users, pyLower p.2.name ≠ pyLower v := by
      unfold get_token_by_name at hlook
      rw [Option.map_eq_none'] at hlook
      rw [List.find?_eq_none] at hlook
      intro p hp hc
      exact hlook p hp (by simp [hc, hkey])
    constructor
    · show sumVotes s.options = countVotedActive (s.users ++ [(fresh, mkUser v)])
      unfold countVotedActive
      rw [List.filter_append]
      simp [mkUser]
      exact hInv.tally
    · show ((namesOf (s.users ++ [(fresh, mkUser v)])).map pyLower).Nodup
      rw [namesOf_append, List.map_append]
      apply List.Nodup.append hInv.nodupNames
      · simp [namesOf, mkUser]
      · intro x hx hx'
        simp only [namesOf, List.map_cons, List.map_nil, List.map_map] at hx'
        obtain ⟨n, hn, rfl⟩ := List.mem_map.mp hx
        rcases List.mem_singleton.mp hx' with h
        obtain ⟨p, hp, rfl⟩ := List.mem_map.mp hn
        exact hnotin p hp (by simpa [mkUser] using h)
    · show ∀ n ∈ namesOf (s.users ++ [(fresh, mkUser v)]), pyStrip n = n
      rw [namesOf_append]
      intro n hn
      rcases List.mem_append.mp hn with hl | hr
      · exact hInv.strippedNames n hl
      · simp only [namesOf, List.map_cons, List.map_nil, List.mem_singleton] at hr
        rw [hr]
        show pyStrip v = v
        rw [hvs]
        exact pyStrip_idem raw
    · exact hInv.phaseOpts

theorem inv_vote (s : DataStore) (token optId : String) (hInv : Inv s) :
    Inv (submit_vote s token optId).2 := by
  cases hfu : findUser s token with
  | none =>
    rw [submit_vote_notfound s token optId hfu]
    exact hInv
  | some user =>
    by_cases he : user.eliminated = true
    · rw [submit_vote_eliminated s token optId user hfu he]
      exact hInv
    · rw [Bool.not_eq_true] at he
      by_cases hvv : user.voted = true
      · rw [submit_vote_conflict s token optId user hfu he hvv]
        exact hInv
      · rw [Bool.not_eq_true] at hvv
        by_cases hst : s.game_status = "voting"
        · by_cases hopt : ∃ o ∈ s.options, o.id = optId
          · obtain ⟨pr, hpr, hpru⟩ := Option.map_eq_some'.mp hfu
            rw [submit_vote_success s token optId pr hpr (by rw [hpru]; exact he)
              (by rw [hpru]; exact hvv) hst hopt]
            constructor
            · show sumVotes (incVote s.options optId) = countVotedActive (updateUser s.users token _)
              rw [sumVotes_incVote s.options optId hopt,
                countVotedActive_markVoted s.users token optId pr hpr
                  (by rw [hpru]; exact he) (by rw [hpru]; exact hvv)]
              rw [hInv.tally]
            · show ((namesOf (updateUser s.users token _)).map pyLower).Nodup
              rw [namesOf_updateUser s.users token
                (fun u => { u with voted := true, vote_option := some optId }) (fun u => rfl)]
              exact hInv.nodupNames
            · show ∀ n ∈ namesOf (updateUser s.users token _), pyStrip n = n
              rw [namesOf_updateUser s.users token
                (fun u => { u with voted := true, vote_option := some optId }) (fun u => rfl)]
              exact hInv.strippedNames
            · intro hph
              have hne := hInv.phaseOpts (Or.inl hst)
              show incVote s.options optId ≠ []
              intro hc
              have := length_incVote s.options optId
              rw [hc] at this
              exact hne (List.eq_nil_of_length_eq_zero this.symm)
          · push_neg at hopt
            rw [submit_vote_invalid_option s token optId user hfu he hvv hst hopt]
            exact hInv
        · rw [submit_vote_wrong_phase s token optId user hfu he hvv hst]
          exact hInv

theorem inv_setOptions (s : DataStore) (names : List String)
    (h2 : 2 ≤ names.length) (hInv : Inv s) : Inv (create_options s names) := by
  constructor
  · show sumVotes (mkOptions names) = countVotedActive (resetVoteStatus s.users)
    rw [sumVotes_mkOptions, countVotedActive_resetVoteStatus]
  · show ((namesOf (resetVoteStatus s.users)).map pyLower).Nodup
    rw [namesOf_resetVoteStatus]
    exact hInv.nodupNames
  · show ∀ n ∈ namesOf (resetVoteStatus s.users), pyStrip n = n
    rw [namesOf_resetVoteStatus]
    exact hInv.strippedNames
  · intro hph
    show mkOptions names ≠ []
    intro hc
    have := length_mkOptions names
    rw [hc] at this
    simp at this
    omega

theorem inv_loadPreset (s : DataStore) (preset : Option (List String)) (hInv : Inv s) :
    Inv (load_preset s preset).2 := by
  match preset with
  | none => exact hInv
  | some [] => exact hInv
  | some (n :: rest) =>
    constructor
    · show sumVotes (mkOptions (n :: rest)) = countVotedActive (resetVoteStatus s.users)
      rw [sumVotes_mkOptions, countVotedActive_resetVoteStatus]
    · show ((namesOf (resetVoteStatus s.users)).map pyLower).Nodup
      rw [namesOf_resetVoteStatus]
      exact hInv.nodupNames
    · show ∀ n' ∈ namesOf (resetVoteStatus s.users), pyStrip n' = n'
      rw [namesOf_resetVoteStatus]
      exact hInv.strippedNames
    · intro hph
      show mkOptions (n :: rest) ≠ []
      intro hc
      have := length_mkOptions (n :: rest)
      rw [hc] at this
      simp at this

theorem inv_startVoting (s : DataStore) (hInv : Inv s) : Inv (start_voting s).2 := by
  unfold start_voting
  by_cases hne : s.options.isEmpty = true
  · rw [if_pos hne]
    exact hInv
  · rw [if_neg hne]
    refine ⟨hInv.tally, hInv.nodupNames, hInv.strippedNames, ?_⟩
    intro hph
    show s.options ≠ []
    intro hc
    rw [hc] at hne
    exact hne rfl

theorem inv_endVoting (s : DataStore) (hInv : Inv s) : Inv (end_voting s).2 := by
  unfold end_voting
  by_cases hst : s.game_status = "voting"
  · rw [if_neg (by simp [hst])]
    refine ⟨hInv.tally, hInv.nodupNames, hInv.strippedNames, ?_⟩
    intro hph
    exact hInv.phaseOpts (Or.inl hst)
  · rw [if_pos hst]
    exact hInv

theorem sumVotes_newOptionSet (newOpts : Option (List String)) :
    sumVotes (newOptionSet newOpts) = 0 := by
  unfold newOptionSet
  match newOpts with
  | none => rfl
  | some [] => rfl
  | some (n :: rest) => exact sumVotes_mkOptions (n :: rest)

theorem namesOf_elimStep (sh : UserRec → Bool) (l : List (String × UserRec)) :
    namesOf ((elimStep sh l).1) = namesOf l := by
  rw [elimStep_users]
  exact namesOf_map_user l (applyElim sh) (applyElim_name sh)

theorem inv_finishRound (s : DataStore) (newOpts : Option (List String)) (tie : Bool)
    (sh : UserRec → Bool) (hInv : Inv s) :
    Inv (finishRound s newOpts tie (elimStep sh s.users)) := by
  constructor
  · show sumVotes (newOptionSet newOpts) =
      countVotedActive (resetVoteStatus (elimStep sh s.users).1)
    rw [sumVotes_newOptionSet, countVotedActive_resetVoteStatus]
  · show ((namesOf (resetVoteStatus (elimStep sh s.users).1)).map pyLower).Nodup
    rw [namesOf_resetVoteStatus, namesOf_elimStep]
    exact hInv.nodupNames
  · show ∀ n ∈ namesOf (resetVoteStatus (elimStep sh s.users).1), pyStrip n = n
    rw [namesOf_resetVoteStatus, namesOf_elimStep]
    exact hInv.strippedNames
  · intro hph
    have hw : (finishRound s newOpts tie (elimStep sh s.users)).game_status = "waiting" := rfl
    rw [hw] at hph
    rcases hph with h | h <;> exact absurd h (by decide)

theorem inv_nextRound (s : DataStore) (newOpts : Option (List String)) (hInv : Inv s) :
    Inv (next_round s newOpts).2 := by
  unfold next_round
  by_cases hst : s.game_status = "result"
  · rw [if_neg (by simp [hst])]
    by_cases htie : isTie s.options = true
    · rw [if_pos htie]
      exact inv_finishRound s newOpts true _ hInv
    · rw [if_neg htie]
      by_cases hemp : s.options.isEmpty = true
      · rw [if_pos hemp]
        exact hInv
      · rw [if_neg hemp]
        exact inv_finishRound s newOpts false _ hInv
  · rw [if_pos hst]
    exact hInv

theorem inv_step {s s' : DataStore} (hInv : Inv s) (h : Step s s') : Inv s' := by
  cases h with
  | register raw v fresh hv hf => exact inv_register s raw v fresh hv hInv
  | vote token optId => exact inv_vote s token optId hInv
  | setOptions names h2 h4 => exact inv_setOptions s names h2 hInv
  | loadPreset preset => exact inv_loadPreset s preset hInv
  | startVoting => exact inv_startVoting s hInv
  | endVoting => exact inv_endVoting s hInv
  | nextRound newOpts => exact inv_nextRound s newOpts hInv
  | reset => exact inv_init

theorem reachable_inv {s : DataStore} (h : Reachable s) : Inv s := by
  induction h with
  | init => exact inv_init
  | step _ hstep ih => exact inv_step ih hstep

/-! ### Characterization of a successful round advance -/

/-- The elimination predicate a round advance applies to each non-eliminated
participant: in a tie, non-voters are eliminated; otherwise non-voters and
majority voters are eliminated. -/
def roundElimPred (s : DataStore) : UserRec → Bool :=
  if isTie s.options then fun u => !u.voted else shouldElimMaj (majorityIds s.options)

/-- The survivor names a round advance records: the non-eliminated
participants not selected by the elimination predicate, in store order. -/
def roundSurvivorNames (sh : UserRec → Bool) (users : List (String × UserRec)) : List String :=
  (users.filter (fun p => !p.2.eliminated && !sh p.2)).map (fun p => p.2.name)

/-- The eliminated names a round advance records: the non-eliminated
participants selected by the elimination predicate, in store order. -/
def roundEliminatedNames (sh : UserRec → Bool) (users : List (String × UserRec)) : List String :=
  (users.filter (fun p => !p.2.eliminated && sh p.2)).map (fun p => p.2.name)

theorem elimStep_surv_names (sh : UserRec → Bool) (l : List (String × UserRec)) :
    (elimStep sh l).2.2 = roundSurvivorNames sh l :=
  elimStep_survivors sh l

theorem elimStep_elim_names (sh : UserRec → Bool) (l : List (String × UserRec)) :
    (elimStep sh l).2.1.map (fun p => p.2) = roundEliminatedNames sh l := by
  rw [elimStep_elims, List.map_map]
  rfl

theorem next_round_success (s : DataStore) (newOpts : Option (List String))
    (hres : s.game_status = "result") (hne : s.options ≠ []) :
    next_round s newOpts = (.ok (isTie s.options),
      finishRound s newOpts (isTie s.options) (elimStep (roundElimPred s) s.users)) := by
  unfold next_round
  rw [if_neg (by simp [hres])]
  by_cases htie : isTie s.options = true
  · rw [if_pos htie]
    unfold roundElimPred
    simp [htie]
  · rw [Bool.not_eq_true] at htie
    rw [if_neg (by simp [htie])]
    rw [if_neg (by simp [List.isEmpty_eq_true]; exact hne)]
    unfold roundElimPred
    simp [htie]

theorem finishRound_users (s : DataStore) (newOpts : Option (List String)) (tie : Bool)
    (sh : UserRec → Bool) :
    (finishRound s newOpts tie (elimStep sh s.users)).users =
      s.users.map (fun p => (p.1, applyReset (applyElim sh p.2))) := by
  show resetVoteStatus (elimStep sh s.users).1 = _
  rw [elimStep_users]
  unfold resetVoteStatus
  rw [List.map_map]
  rfl

theorem finishRound_history (s : DataStore) (newOpts : Option (List String)) (tie : Bool)
    (sh : UserRec → Bool) :
    (finishRound s newOpts tie (elimStep sh s.users)).round_history =
      s.round_history ++ [⟨s.round, optionsSnapshot s.options, tie,
        roundSurvivorNames sh s.users, roundEliminatedNames sh s.users⟩] := by
  show s.round_history ++ [_] = _
  rw [elimStep_surv_names, elimStep_elim_names]

theorem newOptionSet_names (newOpts : Option (List String)) :
    (newOptionSet newOpts).map (fun o => o.name) = newOpts.getD [] := by
  unfold newOptionSet
  match newOpts with
  | none => rfl
  | some [] => rfl
  | some (n :: rest) => exact mkOptions_names (n :: rest)

theorem newOptionSet_votes (newOpts : Option (List String)) :
    ∀ o ∈ newOptionSet newOpts, o.votes = 0 := by
  unfold newOptionSet
  match newOpts with
  | none => intro o ho; simp at ho
  | some [] => intro o ho; simp at ho
  | some (n :: rest) => exact mkOptions_votes (n :: rest)

/-! ### Claim C6 -/

/-- C6 (amended): EndVoting invoked outside the voting phase and AdvanceRound
invoked outside the result phase fail with the invalid-state error and leave
the store unchanged; StartVoting fails with the invalid-state error and
leaves the store unchanged exactly when the option set is empty, and with a
non-empty option set it succeeds from any phase (setting the phase to
voting) — the waiting-phase restriction on StartVoting claimed by the spec is
not enforced by the code. -/
theorem c6_phase_transition_guards (s : DataStore) (newOpts : Option (List String)) :
    (s.game_status ≠ "voting" → end_voting s = (.error errNotVotingPhase, s)) ∧
    (s.game_status ≠ "result" → next_round s newOpts = (.error errNotResultPhase, s)) ∧
    (s.options = [] → start_voting s = (.error errNoOptions, s)) ∧
    (s.options ≠ [] → start_voting s = (.ok (), { s with game_status := "voting" })) := by
  refine ⟨?_, ?_, ?_, ?_⟩
  · intro h
    unfold end_voting
    rw [if_pos h]
  · intro h
    unfold next_round
    rw [if_pos h]
  · intro h
    unfold start_voting
    rw [if_pos (by simp [h])]
  · intro h
    unfold start_voting
    rw [if_neg (by simp [List.isEmpty_eq_true]; exact h)]

/-- C6 witness: concrete instances of the amended guards at the initial store. -/
theorem c6_phase_transition_guards_witness :
    end_voting initStore = (.error errNotVotingPhase, initStore) ∧
    next_round initStore none = (.error errNotResultPhase, initStore) ∧
    start_voting initStore = (.error errNoOptions, initStore) := by
  obtain ⟨h1, h2, h3, _⟩ := c6_phase_transition_guards initStore none
  exact ⟨h1 (by decide), h2 (by decide), h3 rfl⟩

/-- A reachable store in the result phase with a non-empty option set:
set options A/B, start voting, end voting. -/
def c6Store : DataStore :=
  (end_voting (start_voting (create_options initStore ["A", "B"])).2).2

/-- C6 counterexample: in the reachable result-phase state `c6Store`,
StartVoting does not fail with an invalid-state error and does not leave the
state unchanged — it succeeds and moves the phase from result back to
voting, contradicting the claim that no transition other than
waiting→voting, voting→result and result→waiting is possible. -/
theorem c6_counterexample :
    Reachable c6Store ∧
    c6Store.game_status = "result" ∧
    (start_voting c6Store).1 = .ok () ∧
    (start_voting c6Store).2.game_status = "voting" ∧
    (start_voting c6Store).2 ≠ c6Store := by
  refine ⟨?_, rfl, rfl, rfl, by decide⟩
  have h0 : Reachable initStore := Reachable.init
  have h1 : Reachable (create_options initStore ["A", "B"]) :=
    Reachable.step h0 (Step.setOptions initStore ["A", "B"] (by decide) (by decide))
  have h2 : Reachable (start_voting (create_options initStore ["A", "B"])).2 :=
    Reachable.step h1 (Step.startVoting _)
  exact Reachable.step h2 (Step.endVoting _)

/-! ### Claim C8 -/

/-- C8: in every reachable store, the sum of the active options' tallies
equals the number of non-eliminated participants marked voted, and is
therefore at most the number of non-eliminated participants. -/
theorem c8_tally_conservation (s : DataStore) (hreach : Reachable s) :
    sumVotes s.options = countVotedActive s.users ∧
    sumVotes s.options ≤ countActive s.users := by
  have hInv := reachable_inv hreach
  refine ⟨hInv.tally, ?_⟩
  rw [hInv.tally]
  unfold countVotedActive countActive
  apply List.Sublist.length_le
  apply List.monotone_filter_right
  intro p hp
  rw [Bool.and_eq_true] at hp
  exact hp.1

/-- A reachable store in the voting phase where one of two participants has
voted: register Alice and Bob, set options Red/Blue, start voting, Alice
votes Red. -/
def c8Store : DataStore :=
  (submit_vote (start_voting (create_options
    ((register_user (register_user initStore "Alice" "t1").2 "Bob" "t2").2)
    ["Red", "Blue"])).2 "t1" "option_1").2

theorem c8Store_reachable : Reachable c8Store := by
  have h0 : Reachable initStore := Reachable.init
  have h1 := Reachable.step h0 (Step.register initStore "Alice" "Alice" "t1"
    (by decide) (fun p hp => absurd hp (List.not_mem_nil p)))
  have h2 := Reachable.step h1 (Step.register _ "Bob" "Bob" "t2"
    (by decide) (by decide))
  have h3 := Reachable.step h2 (Step.setOptions _ ["Red", "Blue"] (by decide) (by decide))
  have h4 := Reachable.step h3 (Step.startVoting _)
  exact Reachable.step h4 (Step.vote _ "t1" "option_1")

/-- C8 witness: the conservation law evaluated at the concrete reachable
store `c8Store` (one vote cast, tally sum 1, one active voted participant). -/
theorem c8_tally_conservation_witness :
    (sumVotes c8Store.options = countVotedActive c8Store.users ∧
      sumVotes c8Store.options ≤ countActive c8Store.users) ∧
    sumVotes c8Store.options = 1 :=
  ⟨c8_tally_conservation c8Store c8Store_reachable, by decide⟩

/-! ### Claim C7 -/

/-- C7: `submit_vote` applies its checks in order — unknown token (404 not
found), then eliminated participant (403 forbidden), then duplicate vote
(conflict), then wrong phase (invalid state), then unknown option id
(invalid input) — each failure is a distinct typed error and leaves the
store unchanged; on success exactly the chosen option's tally rises by 1,
the voter is marked voted with the chosen option recorded, and an immediate
second vote by the same token fails with the conflict error without
changing the store. -/
theorem c7_vote_checks (s : DataStore) (token optId : String) :
    (findUser s token = none →
      submit_vote s token optId = (.error errUserNotFound, s)) ∧
    (∀ u, findUser s token = some u →
      (u.eliminated = true →
        submit_vote s token optId = (.error errEliminated, s)) ∧
      (u.eliminated = false → u.voted = true →
        submit_vote s token optId = (.error errAlreadyVoted, s)) ∧
      (u.eliminated = false → u.voted = false → s.game_status ≠ "voting" →
        submit_vote s token optId = (.error errNotVotingPhase, s)) ∧
      (u.eliminated = false → u.voted = false → s.game_status = "voting" →
        (∀ o ∈ s.options, o.id ≠ optId) →
        submit_vote s token optId = (.error errInvalidOption, s)) ∧
      (u.eliminated = false → u.voted = false → s.game_status = "voting" →
        (∃ o ∈ s.options, o.id = optId) →
        (submit_vote s token optId).1 = .ok () ∧
        votesFor (submit_vote s token optId).2.options optId =
          votesFor s.options optId + 1 ∧
        (∀ oid, oid ≠ optId →
          votesFor (submit_vote s token optId).2.options oid = votesFor s.options oid) ∧
        sumVotes (submit_vote s token optId).2.options = sumVotes s.options + 1 ∧
        findUser (submit_vote s token optId).2 token =
          some { u with voted := true, vote_option := some optId } ∧
        (∀ optId2, submit_vote (submit_vote s token optId).2 token optId2 =
          (.error errAlreadyVoted, (submit_vote s token optId).2)))) ∧
    ([errUserNotFound, errEliminated, errAlreadyVoted, errNotVotingPhase,
      errInvalidOption].Pairwise (fun a b => a ≠ b)) := by
  refine ⟨submit_vote_notfound s token optId, ?_, by decide⟩
  intro u hu
  refine ⟨submit_vote_eliminated s token optId u hu,
    submit_vote_conflict s token optId u hu,
    submit_vote_wrong_phase s token optId u hu,
    submit_vote_invalid_option s token optId u hu, ?_⟩
  intro he hv hst hopt
  obtain ⟨pr, hpr, hpru⟩ := Option.map_eq_some'.mp hu
  have hsucc := submit_vote_success s token optId pr hpr (by rw [hpru]; exact he)
    (by rw [hpru]; exact hv) hst hopt
  rw [hsucc]
  have hfu2 : findUser
      { s with
        options := incVote s.options optId,
        users := updateUser s.users token
          (fun w => { w with voted := true, vote_option := some optId }) }
      token = some { u with voted := true, vote_option := some optId } := by
    unfold findUser
    show ((updateUser s.users token _).find? (fun p => p.1 = token)).map _ = _
    rw [find?_updateUser_self, hpr]
    show some ({ pr.2 with voted := true, vote_option := some optId } : UserRec) =
      some { u with voted := true, vote_option := some optId }
    rw [hpru]
  refine ⟨rfl, votesFor_incVote_self s.options optId hopt,
    fun oid hoid => votesFor_incVote_other s.options optId oid hoid,
    sumVotes_incVote s.options optId hopt, hfu2, ?_⟩
  intro optId2
  exact submit_vote_conflict _ token optId2
    { u with voted := true, vote_option := some optId } hfu2 he rfl

/-- A reachable voting-phase store: Alice and Bob registered, options
Red/Blue, voting started, nobody has voted yet. -/
def c7Store : DataStore :=
  (start_voting (create_options
    ((register_user (register_user initStore "Alice" "t1").2 "Bob" "t2").2)
    ["Red", "Blue"])).2

/-- C7 witness: at the concrete store `c7Store`, Alice's vote for Red
succeeds and raises Red's tally from 0 to 1, and her immediate second vote
fails with the conflict error, leaving the store unchanged. -/
theorem c7_vote_checks_witness :
    (submit_vote c7Store "t1" "option_1").1 = .ok () ∧
    votesFor (submit_vote c7Store "t1" "option_1").2.options "option_1" =
      votesFor c7Store.options "option_1" + 1 ∧
    (∀ optId2, submit_vote (submit_vote c7Store "t1" "option_1").2 "t1" optId2 =
      (.error errAlreadyVoted, (submit_vote c7Store "t1" "option_1").2)) := by
  have h := ((c7_vote_checks c7Store "t1" "option_1").2.1 (mkUser "Alice")
    (by decide)).2.2.2.2 rfl rfl rfl (by decide)
  exact ⟨h.1, h.2.1, h.2.2.2.2.2⟩

/-! ### Claim C1 -/

/-- C1: a round advance in the result phase whose tallies are not a tie
eliminates exactly the non-eliminated participants who did not vote or whose
chosen option is in the majority set (the ids whose tally equals the highest
tally `maxVotesOf`), and records every other non-eliminated participant in
the survivor list of the appended history entry. -/
theorem c1_majority_round (s : DataStore) (newOpts : Option (List String))
    (hres : s.game_status = "result") (hne : s.options ≠ [])
    (htie : isTie s.options = false) :
    (next_round s newOpts).1 = .ok false ∧
    (∀ o ∈ s.options, o.votes ≤ maxVotesOf s.options) ∧
    (∃ o ∈ s.options, o.votes = maxVotesOf s.options) ∧
    (next_round s newOpts).2.users =
      s.users.map (fun p =>
        (p.1, applyReset (applyElim (shouldElimMaj (majorityIds s.options)) p.2))) ∧
    (next_round s newOpts).2.round_history =
      s.round_history ++ [⟨s.round, optionsSnapshot s.options, false,
        roundSurvivorNames (shouldElimMaj (majorityIds s.options)) s.users,
        roundEliminatedNames (shouldElimMaj (majorityIds s.options)) s.users⟩] := by
  have hpred : roundElimPred s = shouldElimMaj (majorityIds s.options) := by
    unfold roundElimPred
    rw [htie]
    rfl
  have hnr := next_round_success s newOpts hres hne
  rw [hnr, hpred]
  refine ⟨by rw [htie], fun o ho => maxVotesOf_le s.options o ho,
    maxVotesOf_mem s.options hne,
    finishRound_users s newOpts (isTie s.options) _, ?_⟩
  rw [finishRound_history s newOpts (isTie s.options) _, htie]

/-- A reachable result-phase store with a strict majority: Alice and Carol
voted Red, Bob voted Blue. -/
def c1Store : DataStore :=
  (end_voting (submit_vote (submit_vote (submit_vote (start_voting (create_options
    ((register_user (register_user (register_user initStore
      "Alice" "t1").2 "Bob" "t2").2 "Carol" "t3").2)
    ["Red", "Blue"])).2 "t1" "option_1").2 "t2" "option_2").2 "t3" "option_1").2).2

/-- C1 witness: in `c1Store` (Red 2, Blue 1), the round advance eliminates
the Red voters Alice and Carol and records Bob as the only survivor. -/
theorem c1_majority_round_witness :
    c1Store.game_status = "result" ∧ c1Store.options ≠ [] ∧
    isTie c1Store.options = false ∧
    (next_round c1Store none).1 = .ok false ∧
    (next_round c1Store none).2.round_history =
      [⟨1, [("Red", 2), ("Blue", 1)], false, ["Bob"], ["Alice", "Carol"]⟩] := by
  have h := c1_majority_round c1Store none rfl (by decide) (by decide)
  refine ⟨rfl, by decide, by decide, h.1, ?_⟩
  rw [h.2.2.2.2]
  decide

/-! ### Claim C2 -/

/-- C2: in a result-phase round advance on a reachable store, a tie is
declared exactly when all active options share one tally and that common
tally is positive; in a tie exactly the non-eliminated non-voters are
eliminated and every non-eliminated voter survives, regardless of choice. -/
theorem c2_tie_rule (s : DataStore) (newOpts : Option (List String))
    (hreach : Reachable s) (hres : s.game_status = "result") :
    (isTie s.options = true ↔ ∃ v, 0 < v ∧ ∀ o ∈ s.options, o.votes = v) ∧
    (isTie s.options = true →
      (next_round s newOpts).1 = .ok true ∧
      (next_round s newOpts).2.users =
        s.users.map (fun p => (p.1, applyReset (applyElim (fun u => !u.voted) p.2))) ∧
      (next_round s newOpts).2.round_history =
        s.round_history ++ [⟨s.round, optionsSnapshot s.options, true,
          roundSurvivorNames (fun u => !u.voted) s.users,
          roundEliminatedNames (fun u => !u.voted) s.users⟩]) := by
  have hInv := reachable_inv hreach
  have hne := hInv.phaseOpts (Or.inr hres)
  refine ⟨isTie_iff s.options hne, ?_⟩
  intro htie
  have hpred : roundElimPred s = fun u => !u.voted := by
    unfold roundElimPred
    rw [htie]
    rfl
  have hnr := next_round_success s newOpts hres hne
  rw [hnr, hpred]
  exact ⟨by rw [htie], finishRound_users s newOpts (isTie s.options) _,
    by rw [finishRound_history s newOpts (isTie s.options) _, htie]⟩

/-- A reachable result-phase store with a tie: Alice voted Red, Bob voted
Blue, Carol abstained. -/
def c2Store : DataStore :=
  (end_voting (submit_vote (submit_vote (start_voting (create_options
    ((register_user (register_user (register_user initStore
      "Alice" "t1").2 "Bob" "t2").2 "Carol" "t3").2)
    ["Red", "Blue"])).2 "t1" "option_1").2 "t2" "option_2").2).2

theorem c2Store_reachable : Reachable c2Store := by
  have h0 : Reachable initStore := Reachable.init
  have h1 := Reachable.step h0 (Step.register initStore "Alice" "Alice" "t1"
    (by decide) (fun p hp => absurd hp (List.not_mem_nil p)))
  have h2 := Reachable.step h1 (Step.register _ "Bob" "Bob" "t2" (by decide) (by decide))
  have h3 := Reachable.step h2 (Step.register _ "Carol" "Carol" "t3" (by decide) (by decide))
  have h4 := Reachable.step h3 (Step.setOptions _ ["Red", "Blue"] (by decide) (by decide))
  have h5 := Reachable.step h4 (Step.startVoting _)
  have h6 := Reachable.step h5 (Step.vote _ "t1" "option_1")
  have h7 := Reachable.step h6 (Step.vote _ "t2" "option_2")
  exact Reachable.step h7 (Step.endVoting _)

/-- C2 witness: in `c2Store` (Red 1, Blue 1, Carol abstained) the round is a
tie, only the non-voter Carol is eliminated, and both voters survive. -/
theorem c2_tie_rule_witness :
    c2Store.game_status = "result" ∧ isTie c2Store.options = true ∧
    (∃ v, 0 < v ∧ ∀ o ∈ c2Store.options, o.votes = v) ∧
    (next_round c2Store none).1 = .ok true ∧
    (next_round c2Store none).2.round_history =
      [⟨1, [("Red", 1), ("Blue", 1)], true, ["Alice", "Bob"], ["Carol"]⟩] := by
  have h := c2_tie_rule c2Store none c2Store_reachable rfl
  refine ⟨rfl, by decide, h.1.mp (by decide), (h.2 (by decide)).1, ?_⟩
  rw [(h.2 (by decide)).2.2]
  decide

/-! ### Claim C3 -/

/-- C3: a result-phase round advance on a reachable store in which every
active option's tally is 0 is recorded with tie = false, has majority tally
0 with the majority set equal to all active option ids, eliminates every
non-eliminated participant, and records an empty survivor list. -/
theorem c3_all_zero_round (s : DataStore) (newOpts : Option (List String))
    (hreach : Reachable s) (hres : s.game_status = "result")
    (hzero : ∀ o ∈ s.options, o.votes = 0) :
    isTie s.options = false ∧
    (next_round s newOpts).1 = .ok false ∧
    maxVotesOf s.options = 0 ∧
    majorityIds s.options = s.options.map (fun o => o.id) ∧
    (next_round s newOpts).2.round_history =
      s.round_history ++ [⟨s.round, optionsSnapshot s.options, false, [],
        (s.users.filter (fun p => !p.2.eliminated)).map (fun p => p.2.name)⟩] ∧
    (∀ p ∈ (next_round s newOpts).2.users, p.2.eliminated = true) := by
  have hInv := reachable_inv hreach
  have hne := hInv.phaseOpts (Or.inr hres)
  have htie := isTie_false_of_zero s.options hzero
  have hsum0 : sumVotes s.options = 0 := by
    apply sum_zero_of_mem
    intro x hx
    obtain ⟨o, ho, rfl⟩ := List.mem_map.mp hx
    exact hzero o ho
  have hcount0 : countVotedActive s.users = 0 := by
    rw [← hInv.tally]
    exact hsum0
  have hnovote : ∀ p ∈ s.users, p.2.eliminated = false → p.2.voted = false := by
    intro p hp hel
    unfold countVotedActive at hcount0
    rw [List.length_eq_zero, List.filter_eq_nil_iff] at hcount0
    have hnp := hcount0 p hp
    by_contra hv
    rw [Bool.not_eq_false] at hv
    exact hnp (by simp [hel, hv])
  have hsh : ∀ p ∈ s.users, p.2.eliminated = false →
      shouldElimMaj (majorityIds s.options) p.2 = true := by
    intro p hp hel
    unfold shouldElimMaj
    rw [hnovote p hp hel]
    rfl
  have hsurv : roundSurvivorNames (shouldElimMaj (majorityIds s.options)) s.users = [] := by
    unfold roundSurvivorNames
    have hfil : s.users.filter
        (fun p => !p.2.eliminated && !(shouldElimMaj (majorityIds s.options)) p.2) = [] := by
      rw [List.filter_eq_nil_iff]
      intro p hp hc
      rw [Bool.and_eq_true] at hc
      have hel : p.2.eliminated = false := by simpa using hc.1
      have := hsh p hp hel
      rw [this] at hc
      simp at hc
    rw [hfil]
    rfl
  have helim : roundEliminatedNames (shouldElimMaj (majorityIds s.options)) s.users =
      (s.users.filter (fun p => !p.2.eliminated)).map (fun p => p.2.name) := by
    unfold roundEliminatedNames
    congr 1
    apply List.filter_congr
    intro p hp
    by_cases hel : p.2.eliminated = true
    · simp [hel]
    · rw [Bool.not_eq_true] at hel
      simp [hel, hsh p hp hel]
  have hpred : roundElimPred s = shouldElimMaj (majorityIds s.options) := by
    unfold roundElimPred
    rw [htie]
    rfl
  have hnr := next_round_success s newOpts hres hne
  refine ⟨htie, by rw [hnr, htie], maxVotesOf_zero s.options hzero,
    majorityIds_all_of_zero s.options hzero, ?_, ?_⟩
  · rw [hnr, hpred, finishRound_history s newOpts (isTie s.options)
      (shouldElimMaj (majorityIds s.options)), htie, hsurv, helim]
  · intro p hp
    rw [hnr, hpred, finishRound_users s newOpts (isTie s.options)
      (shouldElimMaj (majorityIds s.options))] at hp
    obtain ⟨q, hq, rfl⟩ := List.mem_map.mp hp
    show (applyReset (applyElim (shouldElimMaj (majorityIds s.options)) q.2)).eliminated = true
    by_cases hel : q.2.eliminated = true
    · rw [show applyElim (shouldElimMaj (majorityIds s.options)) q.2 = q.2 from by
        simp [applyElim, hel]]
      simp [applyReset, hel]
    · rw [Bool.not_eq_true] at hel
      have hs := hsh q hq hel
      rw [show applyElim (shouldElimMaj (majorityIds s.options)) q.2 =
          { q.2 with eliminated := true } from by
        unfold applyElim
        rw [if_pos (by simp [hel, hs])]]
      simp [applyReset]

/-- A reachable result-phase store in which nobody voted. -/
def c3Store : DataStore :=
  (end_voting (start_voting (create_options
    (register_user initStore "Alice" "t1").2 ["A", "B"])).2).2

theorem c3Store_reachable : Reachable c3Store := by
  have h0 : Reachable initStore := Reachable.init
  have h1 := Reachable.step h0 (Step.register initStore "Alice" "Alice" "t1"
    (by decide) (fun p hp => absurd hp (List.not_mem_nil p)))
  have h2 := Reachable.step h1 (Step.setOptions _ ["A", "B"] (by decide) (by decide))
  have h3 := Reachable.step h2 (Step.startVoting _)
  exact Reachable.step h3 (Step.endVoting _)

/-- C3 witness: in `c3Store` (both tallies 0, Alice abstained) the round is
not a tie, the majority set is all options, the survivor list is empty, and
Alice is eliminated. -/
theorem c3_all_zero_round_witness :
    (∀ o ∈ c3Store.options, o.votes = 0) ∧
    isTie c3Store.options = false ∧
    maxVotesOf c3Store.options = 0 ∧
    majorityIds c3Store.options = ["option_1", "option_2"] ∧
    (next_round c3Store none).2.round_history =
      [⟨1, [("A", 0), ("B", 0)], false, [], ["Alice"]⟩] ∧
    (∀ p ∈ (next_round c3Store none).2.users, p.2.eliminated = true) := by
  have h := c3_all_zero_round c3Store none c3Store_reachable rfl (by decide)
  refine ⟨by decide, h.1, h.2.2.1, by decide, ?_, h.2.2.2.2.2⟩
  rw [h.2.2.2.2.1]
  decide

/-! ### Claim C4 -/

/-- C4: a result-phase round advance appends exactly one history entry
(recording the pre-advance round number, per-option name and tally snapshot,
tie flag, survivor names and eliminated names), increments the round counter
by exactly 1, resets the phase to waiting, installs the supplied replacement
option list with zeroed tallies (the cleared empty set when none is
supplied), gives every surviving participant voted = false and a cleared
chosen option, and preserves tokens, names, and every existing eliminated
flag. -/
theorem c4_round_advance_effects (s : DataStore) (newOpts : Option (List String))
    (hres : s.game_status = "result") (hne : s.options ≠ []) :
    (next_round s newOpts).1 = .ok (isTie s.options) ∧
    (next_round s newOpts).2.round_history =
      s.round_history ++ [⟨s.round, optionsSnapshot s.options, isTie s.options,
        roundSurvivorNames (roundElimPred s) s.users,
        roundEliminatedNames (roundElimPred s) s.users⟩] ∧
    (next_round s newOpts).2.round = s.round + 1 ∧
    (next_round s newOpts).2.game_status = "waiting" ∧
    (next_round s newOpts).2.options.map (fun o => o.name) = newOpts.getD [] ∧
    (∀ o ∈ (next_round s newOpts).2.options, o.votes = 0) ∧
    (∀ p ∈ (next_round s newOpts).2.users, p.2.eliminated = false →
      p.2.voted = false ∧ p.2.vote_option = none) ∧
    List.Forall₂ (fun p q : String × UserRec => q.1 = p.1 ∧ q.2.name = p.2.name ∧
      (p.2.eliminated = true → q.2.eliminated = true))
      s.users (next_round s newOpts).2.users := by
  have hnr := next_round_success s newOpts hres hne
  rw [hnr]
  refine ⟨rfl, finishRound_history s newOpts (isTie s.options) (roundElimPred s),
    rfl, rfl, newOptionSet_names newOpts, newOptionSet_votes newOpts, ?_, ?_⟩
  · intro p hp hel
    rw [finishRound_users] at hp
    obtain ⟨q, hq, rfl⟩ := List.mem_map.mp hp
    by_cases hx : (applyElim (roundElimPred s) q.2).eliminated = true
    · exfalso
      have hres' : applyReset (applyElim (roundElimPred s) q.2) =
          applyElim (roundElimPred s) q.2 := by
        simp [applyReset, hx]
      have : (q.1, applyReset (applyElim (roundElimPred s) q.2)).2.eliminated = true := by
        rw [hres']
        exact hx
      rw [this] at hel
      cases hel
    · rw [Bool.not_eq_true] at hx
      have hres' : applyReset (applyElim (roundElimPred s) q.2) =
          { applyElim (roundElimPred s) q.2 with voted := false, vote_option := none } := by
        simp [applyReset, hx]
      constructor
      · show (applyReset (applyElim (roundElimPred s) q.2)).voted = false
        rw [hres']
      · show (applyReset (applyElim (roundElimPred s) q.2)).vote_option = none
        rw [hres']
  · rw [finishRound_users]
    apply forall2_map_self
    intro a
    refine ⟨rfl, ?_, ?_⟩
    · show (applyReset (applyElim (roundElimPred s) a.2)).name = a.2.name
      rw [applyReset_name, applyElim_name]
    · intro hel
      show (applyReset (applyElim (roundElimPred s) a.2)).eliminated = true
      rw [show applyElim (roundElimPred s) a.2 = a.2 from by simp [applyElim, hel]]
      simp [applyReset, hel]

/-- A reachable result-phase store (same votes as `c1Store`). -/
def c4Store : DataStore :=
  (end_voting (submit_vote (submit_vote (submit_vote (start_voting (create_options
    ((register_user (register_user (register_user initStore
      "Alice" "t1").2 "Bob" "t2").2 "Carol" "t3").2)
    ["Red", "Blue"])).2 "t1" "option_1").2 "t2" "option_2").2 "t3" "option_1").2).2

/-- C4 witness: advancing `c4Store` with replacement options X/Y appends one
history entry, moves to round 2 in the waiting phase, installs X/Y with zero
tallies, and resets the survivor Bob's ballot. -/
theorem c4_round_advance_effects_witness :
    c4Store.game_status = "result" ∧ c4Store.options ≠ [] ∧
    (next_round c4Store (some ["X", "Y"])).2.round = 2 ∧
    (next_round c4Store (some ["X", "Y"])).2.game_status = "waiting" ∧
    (next_round c4Store (some ["X", "Y"])).2.options.map (fun o => o.name) = ["X", "Y"] ∧
    (∀ p ∈ (next_round c4Store (some ["X", "Y"])).2.users, p.2.eliminated = false →
      p.2.voted = false ∧ p.2.vote_option = none) := by
  have h := c4_round_advance_effects c4Store (some ["X", "Y"]) rfl (by decide)
  exact ⟨rfl, by decide, h.2.2.1, h.2.2.2.1, h.2.2.2.2.1, h.2.2.2.2.2.2.1⟩

/-! ### Stability of lookups across non-reset operations -/

theorem get_token_by_name_eq (s : DataStore) (name : String) :
    get_token_by_name s name =
      (s.users.find? (fun p => pyLower p.2.name = pyStrip (pyLower name))).map
        (fun p => p.1) := rfl

theorem register_user_hit (s : DataStore) (v fresh t : String)
    (h : get_token_by_name s v = some t) :
    register_user s v fresh = ((t, false), s) := by
  unfold register_user
  rw [h]

theorem register_user_miss (s : DataStore) (v fresh : String)
    (h : get_token_by_name s v = none) :
    register_user s v fresh =
      ((fresh, true), { s with users := s.users ++ [(fresh, mkUser v)] }) := by
  unfold register_user
  rw [h]

/-- Dichotomy for `submit_vote`: either the store is unchanged, or the call
succeeded on a non-eliminated voter and performed exactly the tally/ballot
update. -/
theorem submit_vote_state (s : DataStore) (token optId : String) :
    (submit_vote s token optId).2 = s ∨
    ((submit_vote s token optId).2.users = updateUser s.users token
        (fun u => { u with voted := true, vote_option := some optId }) ∧
      (submit_vote s token optId).2.round_history = s.round_history ∧
      ∃ pr, s.users.find? (fun p => p.1 = token) = some pr ∧ pr.2.eliminated = false) := by
  cases hfu : findUser s token with
  | none =>
    left
    rw [submit_vote_notfound s token optId hfu]
  | some user =>
    by_cases he : user.eliminated = true
    · left
      rw [submit_vote_eliminated s token optId user hfu he]
    · rw [Bool.not_eq_true] at he
      by_cases hv : user.voted = true
      · left
        rw [submit_vote_conflict s token optId user hfu he hv]
      · rw [Bool.not_eq_true] at hv
        by_cases hst : s.game_status = "voting"
        · by_cases hopt : ∃ o ∈ s.options, o.id = optId
          · right
            obtain ⟨pr, hpr, hpru⟩ := Option.map_eq_some'.mp hfu
            rw [submit_vote_success s token optId pr hpr (by rw [hpru]; exact he)
              (by rw [hpru]; exact hv) hst hopt]
            exact ⟨rfl, rfl, pr, hpr, by rw [hpru]; exact he⟩
          · left
            push_neg at hopt
            rw [submit_vote_invalid_option s token optId user hfu he hv hst hopt]
        · left
          rw [submit_vote_wrong_phase s token optId user hfu he hv hst]

/-- Dichotomy for `next_round`: either the store is unchanged (wrong phase,
or the empty-options 500 failure), or the advance succeeded. -/
theorem next_round_state (s : DataStore) (newOpts : Option (List String)) :
    (next_round s newOpts).2 = s ∨
    (s.game_status = "result" ∧ s.options ≠ [] ∧
      (next_round s newOpts).2 =
        finishRound s newOpts (isTie s.options) (elimStep (roundElimPred s) s.users)) := by
  by_cases hst : s.game_status = "result"
  · by_cases hne : s.options = []
    · left
      unfold next_round
      rw [if_neg (by simp [hst]), if_neg (by rw [hne]; decide), if_pos (by rw [hne]; rfl)]
    · right
      exact ⟨hst, hne, by rw [next_round_success s newOpts hst hne]⟩
  · left
    unfold next_round
    rw [if_pos hst]

theorem find?_reset_elim (sh : UserRec → Bool) (l : List (String × UserRec)) (tok : String) :
    (resetVoteStatus ((elimStep sh l).1)).find? (fun p => p.1 = tok) =
      (l.find? (fun p => p.1 = tok)).map
        (fun p => (p.1, applyReset (applyElim sh p.2))) := by
  rw [elimStep_users]
  unfold resetVoteStatus
  rw [find?_fst_map, find?_fst_map]
  cases l.find? (fun p => p.1 = tok) <;> rfl

theorem forall2_tn_reset_elim (sh : UserRec → Bool) (l : List (String × UserRec)) :
    List.Forall₂ (fun p q : String × UserRec => q.1 = p.1 ∧ q.2.name = p.2.name)
      l (resetVoteStatus ((elimStep sh l).1)) := by
  rw [elimStep_users]
  unfold resetVoteStatus
  rw [List.map_map]
  apply forall2_map_self
  intro a
  refine ⟨rfl, ?_⟩
  show (applyReset (applyElim sh a.2)).name = a.2.name
  rw [applyReset_name, applyElim_name]

theorem forall2_tn_reset (l : List (String × UserRec)) :
    List.Forall₂ (fun p q : String × UserRec => q.1 = p.1 ∧ q.2.name = p.2.name)
      l (resetVoteStatus l) := by
  unfold resetVoteStatus
  apply forall2_map_self
  intro a
  exact ⟨rfl, applyReset_name a.2⟩

/-- A single non-reset operation never changes the token a registered
(case-normalized) name resolves to. -/
theorem tokenByName_some_step {s s' : DataStore} (h : StepNR s s') (name t : String)
    (hl : get_token_by_name s name = some t) : get_token_by_name s' name = some t := by
  cases h with
  | register raw v fresh hv hf =>
    unfold register_user
    cases hlook : get_token_by_name s v with
    | some tok => exact hl
    | none =>
      rw [get_token_by_name_eq] at hl
      obtain ⟨pr, hpr, hprt⟩ := Option.map_eq_some'.mp hl
      show (((s.users ++ [(fresh, mkUser v)]).find?
        (fun p => pyLower p.2.name = pyStrip (pyLower name))).map (fun p => p.1)) = some t
      rw [find?_append_some hpr]
      rw [← hprt]
      rfl
  | vote token optId =>
    rcases submit_vote_state s token optId with hs | ⟨hu, _, _⟩
    · rw [hs]
      exact hl
    · rw [get_token_by_name_eq] at hl ⊢
      rw [hu]
      rw [find?_name_forall2 (fun a b hab => hab.1) (fun a b hab => hab.2)
        (forall2_updateUser (fun p q : String × UserRec => q.1 = p.1 ∧ q.2.name = p.2.name)
          s.users token (fun u => { u with voted := true, vote_option := some optId })
          (fun a => ⟨rfl, rfl⟩) (fun a => ⟨rfl, rfl⟩)) _]
      exact hl
  | setOptions names h2 h4 =>
    rw [get_token_by_name_eq] at hl ⊢
    show ((resetVoteStatus s.users).find? _).map _ = some t
    rw [find?_name_forall2 (fun a b hab => hab.1) (fun a b hab => hab.2)
      (forall2_tn_reset s.users) _]
    exact hl
  | loadPreset preset =>
    match preset with
    | none => exact hl
    | some [] => exact hl
    | some (n :: rest) =>
      rw [get_token_by_name_eq] at hl ⊢
      show ((resetVoteStatus s.users).find? _).map _ = some t
      rw [find?_name_forall2 (fun a b hab => hab.1) (fun a b hab => hab.2)
        (forall2_tn_reset s.users) _]
      exact hl
  | startVoting =>
    unfold start_voting
    by_cases hemp : s.options.isEmpty = true
    · rw [if_pos hemp]
      exact hl
    · rw [if_neg hemp]
      exact hl
  | endVoting =>
    unfold end_voting
    by_cases hst : s.game_status ≠ "voting"
    · rw [if_pos hst]
      exact hl
    · rw [if_neg hst]
      exact hl
  | nextRound newOpts =>
    rcases next_round_state s newOpts with hs | ⟨_, _, hsucc⟩
    · rw [hs]
      exact hl
    · rw [hsucc]
      rw [get_token_by_name_eq] at hl ⊢
      show ((resetVoteStatus ((elimStep (roundElimPred s) s.users).1)).find? _).map _ = some t
      rw [find?_name_forall2 (fun a b hab => hab.1) (fun a b hab => hab.2)
        (forall2_tn_reset_elim (roundElimPred s) s.users) _]
      exact hl

theorem tokenByName_some_NR {s s' : DataStore} (h : NRSteps s s') (name t : String)
    (hl : get_token_by_name s name = some t) : get_token_by_name s' name = some t := by
  induction h with
  | refl => exact hl
  | tail hsteps hstep ih => exact tokenByName_some_step hstep name t ih

/-! ### Claim C5 -/

/-- C5: for valid names equal up to surrounding-whitespace trimming and
case-insensitive comparison, a second registration (in any phase, after any
sequence of non-reset operations) returns the very token the first
registration returned, marks the caller as returning, and leaves the store
unchanged; and a first registration under a fresh normalized name creates
exactly one new participant carrying the freshly generated unique token. -/
theorem c5_idempotent_registration (s s2 : DataStore) (raw1 raw2 v1 v2 f1 f2 : String)
    (hv1 : validate_name raw1 = some v1) (hv2 : validate_name raw2 = some v2)
    (hsame : pyLower (pyStrip raw1) = pyLower (pyStrip raw2))
    (hnr : NRSteps (register_user s v1 f1).2 s2) :
    register_user s2 v2 f2 = (((register_user s v1 f1).1.1, false), s2) ∧
    (get_token_by_name s v1 = none → freshToken s f1 →
      (register_user s v1 f1).1 = (f1, true) ∧
      (register_user s v1 f1).2.users = s.users ++ [(f1, mkUser v1)] ∧
      f1 ∉ s.users.map (fun p => p.1)) := by
  have hvs1 : v1 = pyStrip raw1 := validate_name_strip hv1
  have hvs2 : v2 = pyStrip raw2 := validate_name_strip hv2
  have hkey2 : pyStrip (pyLower v2) = pyLower v1 := by
    rw [hvs2, pyStrip_pyLower_pyStrip raw2, ← hsame, hvs1]
  have hkey1 : pyStrip (pyLower v1) = pyLower v1 := by
    rw [hvs1]
    exact pyStrip_pyLower_pyStrip raw1
  have hafter : get_token_by_name (register_user s v1 f1).2 v2 =
      some (register_user s v1 f1).1.1 := by
    unfold register_user
    cases hlook : get_token_by_name s v1 with
    | some tok =>
      show get_token_by_name s v2 = some tok
      rw [get_token_by_name_eq, hkey2]
      rw [get_token_by_name_eq, hkey1] at hlook
      exact hlook
    | none =>
      show (((s.users ++ [(f1, mkUser v1)]).find?
        (fun p => pyLower p.2.name = pyStrip (pyLower v2))).map (fun p => p.1)) = some f1
      rw [hkey2]
      rw [get_token_by_name_eq, hkey1] at hlook
      rw [List.find?_append, Option.map_eq_none'.mp hlook]
      simp [mkUser]
  have h2 := tokenByName_some_NR hnr v2 _ hafter
  constructor
  · exact register_user_hit s2 v2 f2 _ h2
  · intro hlook0 hf
    rw [register_user_miss s v1 f1 hlook0]
    refine ⟨rfl, rfl, ?_⟩
    intro hmem
    obtain ⟨p, hp, hpt⟩ := List.mem_map.mp hmem
    exact hf p hp hpt

/-- C5 witness: registering "Alice" at the empty store issues token t1 and
creates one participant; registering the case/space variant " alice "
(normalized "alice") afterwards returns the same token t1 and leaves the
store unchanged. -/
theorem c5_idempotent_registration_witness :
    validate_name "Alice" = some "Alice" ∧
    validate_name " alice " = some "alice" ∧
    pyLower (pyStrip "Alice") = pyLower (pyStrip " alice ") ∧
    (register_user initStore "Alice" "t1").1 = ("t1", true) ∧
    (register_user initStore "Alice" "t1").2.users =
      initStore.users ++ [("t1", mkUser "Alice")] ∧
    register_user (register_user initStore "Alice" "t1").2 "alice" "t2" =
      (("t1", false), (register_user initStore "Alice" "t1").2) := by
  have h := c5_idempotent_registration initStore (register_user initStore "Alice" "t1").2
    "Alice" " alice " "Alice" "alice" "t1" "t2" (by decide) (by decide) (by decide)
    (NRSteps.refl _)
  have hnew := h.2 (by decide) (fun p hp => absurd hp (List.not_mem_nil p))
  exact ⟨by decide, by decide, by decide, hnew.1, hnew.2.1, h.1⟩

/-! ### Claim C9 -/

theorem nodup_lower_names {s : DataStore} (hInv : Inv s) :
    (s.users.map (fun p => pyLower p.2.name)).Nodup := by
  have hh : (namesOf s.users).map pyLower = s.users.map (fun p => pyLower p.2.name) := by
    unfold namesOf
    rw [List.map_map]
    rfl
  have := hInv.nodupNames
  rw [hh] at this
  exact this

/-- Under the name-uniqueness invariant, an eliminated participant's name
appears in neither list a round advance would record. -/
theorem name_not_in_round_lists {s : DataStore} (hInv : Inv s) {pr : String × UserRec}
    (hmem : pr ∈ s.users) (he : pr.2.eliminated = true) (sh : UserRec → Bool) :
    pr.2.name ∉ roundSurvivorNames sh s.users ∧
    pr.2.name ∉ roundEliminatedNames sh s.users := by
  have hnodup := nodup_lower_names hInv
  constructor
  · intro hmem2
    unfold roundSurvivorNames at hmem2
    obtain ⟨q, hq, hqn⟩ := List.mem_map.mp hmem2
    rw [List.mem_filter] at hq
    obtain ⟨hqmem, hqpred⟩ := hq
    rw [Bool.and_eq_true] at hqpred
    have hqel : q.2.eliminated = false := by simpa using hqpred.1
    have hqeq : q = pr :=
      List.inj_on_of_nodup_map hnodup hqmem hmem (by rw [hqn])
    rw [hqeq, he] at hqel
    cases hqel
  · intro hmem2
    unfold roundEliminatedNames at hmem2
    obtain ⟨q, hq, hqn⟩ := List.mem_map.mp hmem2
    rw [List.mem_filter] at hq
    obtain ⟨hqmem, hqpred⟩ := hq
    rw [Bool.and_eq_true] at hqpred
    have hqel : q.2.eliminated = false := by simpa using hqpred.1
    have hqeq : q = pr :=
      List.inj_on_of_nodup_map hnodup hqmem hmem (by rw [hqn])
    rw [hqeq, he] at hqel
    cases hqel

/-- A single non-reset operation keeps an eliminated participant eliminated
with an unchanged name, and any history entry it appends mentions the
participant in neither the survivor nor the eliminated list. -/
theorem elim_pres_step {s s' : DataStore} (hInv : Inv s) (h : StepNR s s')
    {tok : String} {pr : String × UserRec}
    (hpr : s.users.find? (fun p => p.1 = tok) = some pr) (he : pr.2.eliminated = true) :
    (∃ pr', s'.users.find? (fun p => p.1 = tok) = some pr' ∧
      pr'.2.eliminated = true ∧ pr'.2.name = pr.2.name) ∧
    (∃ ext, s'.round_history = s.round_history ++ ext ∧
      ∀ e ∈ ext, pr.2.name ∉ e.survivors ∧ pr.2.name ∉ e.eliminated) := by
  cases h with
  | register raw v fresh hv hf =>
    cases hlook : get_token_by_name s v with
    | some tok2 =>
      rw [register_user_hit s v fresh tok2 hlook]
      exact ⟨⟨pr, hpr, he, rfl⟩, [], by rw [List.append_nil], by simp⟩
    | none =>
      rw [register_user_miss s v fresh hlook]
      refine ⟨⟨pr, ?_, he, rfl⟩, [], by rw [List.append_nil], by simp⟩
      exact find?_append_some hpr
  | vote token optId =>
    rcases submit_vote_state s token optId with hs | ⟨hu, hh, prv, hprv, hev⟩
    · rw [hs]
      exact ⟨⟨pr, hpr, he, rfl⟩, [], by rw [List.append_nil], by simp⟩
    · have hneq : tok ≠ token := by
        intro hc
        subst hc
        rw [hprv] at hpr
        injection hpr with hpp
        rw [← hpp, hev] at he
        cases he
      refine ⟨⟨pr, ?_, he, rfl⟩, [], ?_, by simp⟩
      · rw [hu, find?_updateUser_other s.users token tok _ hneq]
        exact hpr
      · rw [hh, List.append_nil]
  | setOptions names h2 h4 =>
    refine ⟨⟨(pr.1, applyReset pr.2), ?_, ?_, applyReset_name pr.2⟩,
      [], by show s.round_history = s.round_history ++ []; rw [List.append_nil], by simp⟩
    · show (resetVoteStatus s.users).find? (fun p => p.1 = tok) = _
      unfold resetVoteStatus
      rw [find?_fst_map, hpr]
      rfl
    · show (applyReset pr.2).eliminated = true
      simp [applyReset, he]
  | loadPreset preset =>
    match preset with
    | none =>
      exact ⟨⟨pr, hpr, he, rfl⟩, [],
        by show s.round_history = s.round_history ++ []; rw [List.append_nil], by simp⟩
    | some [] =>
      exact ⟨⟨pr, hpr, he, rfl⟩, [],
        by show s.round_history = s.round_history ++ []; rw [List.append_nil], by simp⟩
    | some (n :: rest) =>
      refine ⟨⟨(pr.1, applyReset pr.2), ?_, ?_, applyReset_name pr.2⟩,
        [], by show s.round_history = s.round_history ++ []; rw [List.append_nil], by simp⟩
      · show (resetVoteStatus s.users).find? (fun p => p.1 = tok) = _
        unfold resetVoteStatus
        rw [find?_fst_map, hpr]
        rfl
      · show (applyReset pr.2).eliminated = true
        simp [applyReset, he]
  | startVoting =>
    unfold start_voting
    by_cases hemp : s.options.isEmpty = true
    · rw [if_pos hemp]
      exact ⟨⟨pr, hpr, he, rfl⟩, [], by rw [List.append_nil], by simp⟩
    · rw [if_neg hemp]
      exact ⟨⟨pr, hpr, he, rfl⟩, [], by rw [List.append_nil], by simp⟩
  | endVoting =>
    unfold end_voting
    by_cases hst : s.game_status ≠ "voting"
    · rw [if_pos hst]
      exact ⟨⟨pr, hpr, he, rfl⟩, [], by rw [List.append_nil], by simp⟩
    · rw [if_neg hst]
      exact ⟨⟨pr, hpr, he, rfl⟩, [], by rw [List.append_nil], by simp⟩
  | nextRound newOpts =>
    rcases next_round_state s newOpts with hs | ⟨_, _, hsucc⟩
    · rw [hs]
      exact ⟨⟨pr, hpr, he, rfl⟩, [], by rw [List.append_nil], by simp⟩
    · rw [hsucc]
      have hmem := List.mem_of_find?_eq_some hpr
      have hsafe := name_not_in_round_lists hInv hmem he (roundElimPred s)
      refine ⟨⟨(pr.1, applyReset (applyElim (roundElimPred s) pr.2)), ?_, ?_, ?_⟩,
        [⟨s.round, optionsSnapshot s.options, isTie s.options,
          roundSurvivorNames (roundElimPred s) s.users,
          roundEliminatedNames (roundElimPred s) s.users⟩], ?_, ?_⟩
      · show (resetVoteStatus ((elimStep (roundElimPred s) s.users).1)).find?
          (fun p => p.1 = tok) = _
        rw [find?_reset_elim, hpr]
        rfl
      · show (applyReset (applyElim (roundElimPred s) pr.2)).eliminated = true
        rw [show applyElim (roundElimPred s) pr.2 = pr.2 from by simp [applyElim, he]]
        simp [applyReset, he]
      · show (applyReset (applyElim (roundElimPred s) pr.2)).name = pr.2.name
        rw [applyReset_name, applyElim_name]
      · exact finishRound_history s newOpts (isTie s.options) (roundElimPred s)
      · intro e hme
        rw [List.mem_singleton] at hme
        subst hme
        exact hsafe

/-- C9: once a participant is eliminated, after any further sequence of
non-reset operations the participant is still eliminated under the same
name, every vote they submit fails with the forbidden (eliminated) error
without mutating the store, and no history entry recorded after that point
lists them among the survivors or the newly eliminated. -/
theorem c9_monotonic_elimination (s s' : DataStore) (tok : String) (u : UserRec)
    (hreach : Reachable s) (hnr : NRSteps s s')
    (hu : findUser s tok = some u) (helim : u.eliminated = true) :
    (∃ u', findUser s' tok = some u' ∧ u'.eliminated = true ∧ u'.name = u.name) ∧
    (∀ optId, submit_vote s' tok optId = (.error errEliminated, s')) ∧
    (∃ ext, s'.round_history = s.round_history ++ ext ∧
      ∀ e ∈ ext, u.name ∉ e.survivors ∧ u.name ∉ e.eliminated) := by
  obtain ⟨pr, hpr, hpru⟩ := Option.map_eq_some'.mp hu
  have hkey : (∃ pr', s'.users.find? (fun p => p.1 = tok) = some pr' ∧
      pr'.2.eliminated = true ∧ pr'.2.name = pr.2.name) ∧
      (∃ ext, s'.round_history = s.round_history ++ ext ∧
        ∀ e ∈ ext, pr.2.name ∉ e.survivors ∧ pr.2.name ∉ e.eliminated) := by
    clear hu
    induction hnr with
    | refl =>
      exact ⟨⟨pr, hpr, by rw [hpru]; exact helim, rfl⟩,
        [], by rw [List.append_nil], by simp⟩
    | @tail s1 s2 hsteps hstep ih =>
      obtain ⟨⟨pr1, hpr1, he1, hn1⟩, ⟨ext1, hh1, hsafe1⟩⟩ := ih
      have hInv1 : Inv s1 := reachable_inv (NRSteps.reachable hreach hsteps)
      obtain ⟨⟨pr2, hpr2, he2, hn2⟩, ⟨ext2, hh2, hsafe2⟩⟩ :=
        elim_pres_step hInv1 hstep hpr1 he1
      refine ⟨⟨pr2, hpr2, he2, by rw [hn2, hn1]⟩, ext1 ++ ext2, ?_, ?_⟩
      · rw [hh2, hh1, List.append_assoc]
      · intro e hme
        rcases List.mem_append.mp hme with h1 | h2
        · exact hsafe1 e h1
        · have := hsafe2 e h2
          rw [hn1] at this
          exact this
  obtain ⟨⟨pr', hpr', he', hn'⟩, hhist⟩ := hkey
  have hfu' : findUser s' tok = some pr'.2 := by
    unfold findUser
    rw [hpr']
    rfl
  refine ⟨⟨pr'.2, hfu', he', by rw [hn', hpru]⟩, ?_, by rw [← hpru]; exact hhist⟩
  intro optId
  exact submit_vote_eliminated s' tok optId pr'.2 hfu' he'

/-- A reachable store in which Alice has been eliminated: she was the only
voter (Red), so the majority rule eliminated both her and the non-voter
Bob; round 2 is back in the waiting phase. -/
def c9Store : DataStore :=
  (next_round (end_voting (submit_vote (start_voting (create_options
    ((register_user (register_user initStore "Alice" "t1").2 "Bob" "t2").2)
    ["Red", "Blue"])).2 "t1" "option_1").2).2 none).2

theorem c9Store_reachable : Reachable c9Store := by
  have h0 : Reachable initStore := Reachable.init
  have h1 := Reachable.step h0 (Step.register initStore "Alice" "Alice" "t1"
    (by decide) (fun p hp => absurd hp (List.not_mem_nil p)))
  have h2 := Reachable.step h1 (Step.register _ "Bob" "Bob" "t2" (by decide) (by decide))
  have h3 := Reachable.step h2 (Step.setOptions _ ["Red", "Blue"] (by decide) (by decide))
  have h4 := Reachable.step h3 (Step.startVoting _)
  have h5 := Reachable.step h4 (Step.vote _ "t1" "option_1")
  have h6 := Reachable.step h5 (Step.endVoting _)
  exact Reachable.step h6 (Step.nextRound _ none)

/-- C9 witness: in `c9Store` Alice (token t1) is eliminated; the theorem
applied with the empty continuation confirms she stays eliminated, her vote
fails with the forbidden error, and no later history entry mentions her. -/
theorem c9_monotonic_elimination_witness :
    findUser c9Store "t1" =
      some { name := "Alice", voted := true, vote_option := some "option_1",
             eliminated := true } ∧
    (∃ u', findUser c9Store "t1" = some u' ∧ u'.eliminated = true ∧ u'.name = "Alice") ∧
    (∀ optId, submit_vote c9Store "t1" optId = (.error errEliminated, c9Store)) := by
  have h := c9_monotonic_elimination c9Store c9Store "t1"
    { name := "Alice", voted := true, vote_option := some "option_1", eliminated := true }
    c9Store_reachable (NRSteps.refl _) (by decide) rfl
  exact ⟨by decide, h.1, h.2.1⟩

/-! ### Claim C10 -/

/-- C10: in every reachable store, the voting and result phases have a
non-empty active option set, and consequently a round advance never reaches
the branch that would take the maximum of an empty tally sequence (the
Python `max() arg is an empty sequence` failure is unreachable). -/
theorem c10_phase_options_nonempty (s : DataStore) (hreach : Reachable s) :
    ((s.game_status = "voting" ∨ s.game_status = "result") → s.options ≠ []) ∧
    (∀ newOpts, (next_round s newOpts).1 ≠ .error errEmptyMax) := by
  have hInv := reachable_inv hreach
  refine ⟨hInv.phaseOpts, ?_⟩
  intro newOpts
  unfold next_round
  by_cases hst : s.game_status = "result"
  · rw [if_neg (by simp [hst])]
    by_cases htie : isTie s.options = true
    · rw [if_pos htie]
      intro hc
      simp at hc
    · rw [if_neg htie]
      have hne := hInv.phaseOpts (Or.inr hst)
      rw [if_neg (by simp [List.isEmpty_eq_true]; exact hne)]
      intro hc
      simp at hc
  · rw [if_pos hst]
    intro hc
    have : errNotResultPhase = errEmptyMax := by
      injection hc
    exact absurd this (by decide)

/-- A reachable store in the result phase (options A/B, no votes). -/
def c10Store : DataStore :=
  (end_voting (start_voting (create_options initStore ["A", "B"])).2).2

theorem c10Store_reachable : Reachable c10Store := by
  have h0 : Reachable initStore := Reachable.init
  have h1 := Reachable.step h0 (Step.setOptions initStore ["A", "B"] (by decide) (by decide))
  have h2 := Reachable.step h1 (Step.startVoting _)
  exact Reachable.step h2 (Step.endVoting _)

/-- C10 witness: the non-emptiness guarantee evaluated at the concrete
reachable result-phase store `c10Store`. -/
theorem c10_phase_options_nonempty_witness :
    c10Store.game_status = "result" ∧
    c10Store.options ≠ [] ∧
    (next_round c10Store none).1 ≠ .error errEmptyMax := by
  have h := c10_phase_options_nonempty c10Store c10Store_reachable
  exact ⟨rfl, h.1 (Or.inr rfl), h.2 none⟩

end HappyDay
